import Mathlib

/-!
Verification development for the `FirestoreRepo` transactional engine of the
revs labeler tool (`labeler_backend/fire_repo.py`).

The store documents are modelled shallowly: an `Image` and a `UserDoc` are
structures holding the fields the engine reads and writes; a Label document is
a flat field map (`Doc`), because `save_labels` merges arbitrary payload keys
into it.  Collections are association lists keyed by document id, and the three
transactional operations (`get_next_task`, `save_labels`, `confirm_labels`) are
translated as pure functions on a `Store`, with Firestore server timestamps
passed in as an explicit `now : Nat` and transaction failure as `Except`.
-/

/-- A Firestore field value, restricted to the atomic shapes the engine
manipulates.  Nested maps are not needed by any claim: the engine only ever
reads and writes whole top-level fields. -/
inductive DocVal where
  | vStr (s : String)
  | vInt (n : Int)
  | vBool (b : Bool)
  | vNull
  | vTime (t : Nat)
deriving DecidableEq, Repr

/-- A document as a flat field map (association list; payloads coming from
Python dicts have unique keys). -/
abbrev Doc := List (String × DocVal)

/-- Python truthiness of an optional string (`None` and `""` are falsy). -/
def truthyOptStr : Option String → Bool
  | none => false
  | some s => !(s == "")

/-- The Image document fields read or written by the engine
(`REVS_images` collection). -/
structure Image where
  status : String
  qa_status : Option String
  assigned_to : Option String
  property_id : Option String
  flagged : DocVal
  qa_feedback : Option String
  confirmed_by : Option String
  timestamp_uploaded : Nat
  timestamp_assigned : Option Nat
  timestamp_labeled : Option Nat
  timestamp_confirmed : Option Nat
  task_expires_at : Option Nat
deriving DecidableEq, Repr

/-- The User document fields read or written by the engine
(`REVS_users` collection). -/
structure UserDoc where
  role : Option String
  current_property_id : Option String
  images_to_review : Int
  images_confirmed : Int
  images_processed : Int
  last_labeled_image_id : Option String
  timestamp_last_labeled : Option Nat
deriving DecidableEq, Repr

/-- A user document as Firestore materialises it when only some fields were
ever written: all counters read as zero, all other fields as absent. -/
def emptyUser : UserDoc :=
  { role := none, current_property_id := none, images_to_review := 0,
    images_confirmed := 0, images_processed := 0,
    last_labeled_image_id := none, timestamp_last_labeled := none }

/-- One archived revision record in a Label's `revisions` sub-collection. -/
structure Revision where
  payload : Doc
  edited_by : String
  edited_at : Nat
deriving DecidableEq, Repr

/-- Lookup in an association list keyed by document id. -/
def lookupA {β : Type} (l : List (String × β)) (k : String) : Option β :=
  match l with
  | [] => none
  | (k1, v) :: t => if k1 = k then some v else lookupA t k

/-- Write to an association list keyed by document id (replace the existing
entry, or append a fresh one). -/
def setA {β : Type} (l : List (String × β)) (k : String) (v : β) : List (String × β) :=
  match l with
  | [] => [(k, v)]
  | (k1, v1) :: t => if k1 = k then (k, v) :: t else (k1, v1) :: setA t k v

/-- Field lookup in a document. -/
def lookupDoc (d : Doc) (k : String) : Option DocVal :=
  lookupA d k

/-- Set one field of a document (replace if the key exists, append otherwise). -/
def setDoc (d : Doc) (k : String) (v : DocVal) : Doc :=
  setA d k v

/-- Firestore `set(..., merge=True)` on flat documents: every field of `new`
overwrites or extends `old`. -/
def mergeDoc (old new : Doc) : Doc :=
  new.foldl (fun acc kv => setDoc acc kv.1 kv.2) old

/-- The whole store: the three collections plus the per-label `revisions`
sub-collections (keyed by the owning label's image id, in append order). -/
structure Store where
  images : List (String × Image)
  labels : List (String × Doc)
  revs : List (String × List Revision)
  users : List (String × UserDoc)
deriving DecidableEq, Repr

/-- Document ids are pairwise distinct in every collection. -/
def WFStore (s : Store) : Prop :=
  (s.images.map Prod.fst).Nodup ∧ (s.labels.map Prod.fst).Nodup ∧
  (s.revs.map Prod.fst).Nodup ∧ (s.users.map Prod.fst).Nodup

/-- First element of a query result under Firestore's default ordering by
document id ascending (the effect of `.limit(1)` on an unordered query). -/
def minByKey {β : Type} : List (String × β) → Option (String × β)
  | [] => none
  | e :: t =>
    match minByKey t with
    | none => some e
    | some f => if e.1 ≤ f.1 then some e else some f

/-- Ordering used by the candidate query: `timestamp_uploaded` ascending,
ties broken by document id (Firestore's implicit `__name__` tiebreaker). -/
def tuKeyLe (a b : String × Image) : Bool :=
  a.2.timestamp_uploaded < b.2.timestamp_uploaded ||
  (a.2.timestamp_uploaded == b.2.timestamp_uploaded && a.1 ≤ b.1)

/-- Insertion step of the candidate sort. -/
def insertTU (x : String × Image) : List (String × Image) → List (String × Image)
  | [] => [x]
  | y :: ys => if tuKeyLe x y then x :: y :: ys else y :: insertTU x ys

/-- Sort query results by (`timestamp_uploaded`, id). -/
def sortTU (l : List (String × Image)) : List (String × Image) :=
  l.foldr insertTU []

/-- Predicate of the revision-priority query:
`qa_status == "review" and assigned_to == user_id`. -/
def reviewPredB (user_id : String) (im : Image) : Bool :=
  im.qa_status == some "review" && im.assigned_to == some user_id

/-- Predicate of the resume query:
`status == "in_progress" and assigned_to == user_id`. -/
def resumePredB (user_id : String) (im : Image) : Bool :=
  im.status == "in_progress" && im.assigned_to == some user_id

/-- `TASK_LOCK_MINUTES` default. -/
def LOCK_WINDOW_MINUTES : Nat := 60

/-- Lock deadline stamped on a claimed task. -/
def lockExpiry (now : Nat) : Nat := now + 60 * LOCK_WINDOW_MINUTES

/-- Result of `get_next_task`: the post-transaction store and the returned
task dict (image id plus the document data as the code returns it). -/
structure TaskResult where
  store : Store
  task : Option (String × Image)
deriving DecidableEq, Repr

/-- The `users.where("current_property_id", "==", pid).limit(1)` check of the
new-property branch: is the property held by a user other than the caller? -/
def property_taken_by_other (users : List (String × UserDoc)) (user_id pid : String) : Bool :=
  match minByKey (users.filter (fun e => e.2.current_property_id == some pid)) with
  | none => false
  | some e => !(e.1 == user_id)

/-- The step-2b scan: first candidate whose `property_id` is truthy, differs
from the caller's current property, and is not taken by another user. -/
def findClaimable (users : List (String × UserDoc)) (user_id : String)
    (cpid : Option String) : List (String × Image) → Option (String × Image)
  | [] => none
  | c :: rest =>
    if !truthyOptStr c.2.property_id then findClaimable users user_id cpid rest
    else if c.2.property_id == cpid then findClaimable users user_id cpid rest
    else if property_taken_by_other users user_id (c.2.property_id.getD "") then
      findClaimable users user_id cpid rest
    else some c

/-- `FirestoreRepo.get_next_task` transaction body: revision priority, then
resume, then the property-affinity claim over a 50-candidate window. -/
def get_next_task (s : Store) (user_id : String) (now : Nat) : TaskResult :=
  match minByKey (s.images.filter (fun e => reviewPredB user_id e.2)) with
  | some (i, im) =>
    let im2 := { im with
      status := "in_progress", timestamp_assigned := some now,
      task_expires_at := some (lockExpiry now) }
    ⟨{ s with images := setA s.images i im2 },
      some (i, { im with status := "in_progress" })⟩
  | none =>
  match minByKey (s.images.filter (fun e => resumePredB user_id e.2)) with
  | some (i, im) => ⟨s, some (i, im)⟩
  | none =>
    let user_data := (lookupA s.users user_id).getD emptyUser
    let cpid := user_data.current_property_id
    let cands := (sortTU (s.images.filter (fun e => e.2.status == "unlabeled"))).take 50
    let step2b : TaskResult :=
      match findClaimable s.users user_id cpid cands with
      | some (i, im) =>
        let im2 := { im with
          status := "in_progress", assigned_to := some user_id,
          timestamp_assigned := some now, task_expires_at := some (lockExpiry now) }
        let u2 := { user_data with current_property_id := some (im.property_id.getD "") }
        ⟨{ s with
            users := setA s.users user_id u2,
            images := setA s.images i im2 },
          some (i, { im with status := "in_progress", assigned_to := some user_id })⟩
      | none =>
        if truthyOptStr cpid then
          let u2 := { user_data with current_property_id := none }
          ⟨{ s with users := setA s.users user_id u2 }, none⟩
        else ⟨s, none⟩
    if truthyOptStr cpid then
      match cands.find? (fun e => e.2.property_id == cpid) with
      | some (i, im) =>
        let im2 := { im with
          status := "in_progress", assigned_to := some user_id,
          timestamp_assigned := some now, task_expires_at := some (lockExpiry now) }
        ⟨{ s with images := setA s.images i im2 },
          some (i, { im with status := "in_progress", assigned_to := some user_id })⟩
      | none => step2b
    else step2b

/-- How `save_labels` can fail: the freeze check raises a `PermissionError`,
and the image update (`txn.update` on a missing document) aborts the
transaction with a not-found error. -/
inductive SaveErr where
  | permissionDenied
  | notFound
deriving DecidableEq, Repr

/-- `FirestoreRepo.save_labels` transaction body: freeze check, label
write/merge with revision archival, image update, first-time counter
increment, user bookkeeping. -/
def save_labels (s : Store) (image_id : String) (payload : Doc) (user_id : String)
    (now : Nat) : Except SaveErr Store :=
  let img? := lookupA s.images image_id
  let is_confirmed := (match img? with | some im => im.qa_status | none => none) == some "confirmed"
  let is_admin_user := (match lookupA s.users user_id with
    | some u => u.role == some "admin"
    | none => false)
  if is_confirmed && !is_admin_user then .error .permissionDenied
  else
    match img? with
    | none => .error .notFound
    | some im =>
      let snap? := lookupA s.labels image_id
      let to_write :=
        match snap? with
        | none => setDoc (setDoc payload "updated_at" (.vTime now)) "timestamp_created" (.vTime now)
        | some _ => setDoc payload "updated_at" (.vTime now)
      let newLabel :=
        match snap? with
        | none => to_write
        | some prev => mergeDoc prev to_write
      let newRevs :=
        match snap? with
        | none => s.revs
        | some prev =>
          setA s.revs image_id
            (((lookupA s.revs image_id).getD []) ++
              [{ payload := prev, edited_by := user_id, edited_at := now }])
      let im2 := { im with
        status := "labeled", timestamp_labeled := some now,
        task_expires_at := none,
        flagged := (lookupDoc payload "flagged").getD (.vBool false),
        qa_status := some "pending" }
      let u0 := (lookupA s.users user_id).getD emptyUser
      let u1 :=
        match snap? with
        | none => { u0 with
            images_to_review := u0.images_to_review + 1,
            images_processed := u0.images_processed + 1 }
        | some _ => u0
      let u2 := { u1 with
        last_labeled_image_id := some image_id,
        timestamp_last_labeled := some now }
      .ok { images := setA s.images image_id im2,
            labels := setA s.labels image_id newLabel,
            revs := newRevs,
            users := setA s.users user_id u2 }

/-- `FirestoreRepo.confirm_labels` transaction body: no-op when the image is
missing or already confirmed; otherwise stamp the confirmation and move the
original labeler's counters.  A `labeled_by` value that is not a non-empty
string fails the code's `if labeler_id:` truthiness check, so no counters
move. -/
def confirm_labels (s : Store) (image_id : String) (admin_id : String) (now : Nat) : Store :=
  match lookupA s.images image_id with
  | none => s
  | some im =>
    if im.qa_status == some "confirmed" then s
    else
      let labeler? : Option String :=
        match lookupA s.labels image_id with
        | none => none
        | some d =>
          match lookupDoc d "labeled_by" with
          | some (.vStr w) => if w == "" then none else some w
          | _ => none
      let im2 := { im with
        qa_status := some "confirmed", qa_feedback := none,
        assigned_to := none, confirmed_by := some admin_id,
        timestamp_confirmed := some now }
      let s1 := { s with images := setA s.images image_id im2 }
      match labeler? with
      | none => s1
      | some w =>
        let u0 := (lookupA s1.users w).getD emptyUser
        let u1 := { u0 with
          images_confirmed := u0.images_confirmed + 1,
          images_to_review := u0.images_to_review - 1 }
        { s1 with users := setA s1.users w u1 }

/-- One serialized repository operation. -/
inductive Op where
  | gnt (user_id : String) (now : Nat)
  | save (image_id : String) (payload : Doc) (user_id : String) (now : Nat)
  | confirm (image_id : String) (admin_id : String) (now : Nat)
deriving DecidableEq, Repr

/-- Apply one operation; a failed `save_labels` transaction leaves the store
unchanged (the transaction aborts without committing). -/
def applyOp (s : Store) : Op → Store
  | .gnt u t => (get_next_task s u t).store
  | .save i p u t =>
    match save_labels s i p u t with
    | .ok s2 => s2
    | .error _ => s
  | .confirm i a t => confirm_labels s i a t

/-- Apply a sequence of serialized operations. -/
def applyOps (s : Store) (ops : List Op) : Store :=
  ops.foldl applyOp s

/-- Does the image's `qa_status` lie in {pending, review, confirmed}? -/
def qaCounted (s : Store) (image_id : String) : Bool :=
  match lookupA s.images image_id with
  | some im =>
    im.qa_status == some "pending" || im.qa_status == some "review" ||
      im.qa_status == some "confirmed"
  | none => false

/-- Number of Label documents with `labeled_by = w` whose image's `qa_status`
is in {pending, review, confirmed}. -/
def labelCount (s : Store) (w : String) : Nat :=
  (s.labels.filter
    (fun e => lookupDoc e.2 "labeled_by" == some (.vStr w) && qaCounted s e.1)).length

/-- `images_to_review + images_confirmed` for worker `w` (absent fields and
absent documents read as zero). -/
def counterSum (s : Store) (w : String) : Int :=
  let u := (lookupA s.users w).getD emptyUser
  u.images_to_review + u.images_confirmed

/-- `images_to_review` of worker `w`. -/
def toReviewOf (s : Store) (w : String) : Int :=
  ((lookupA s.users w).getD emptyUser).images_to_review

/-- `images_confirmed` of worker `w`. -/
def confirmedOf (s : Store) (w : String) : Int :=
  ((lookupA s.users w).getD emptyUser).images_confirmed

/-- `images_processed` of worker `w`. -/
def processedOf (s : Store) (w : String) : Int :=
  ((lookupA s.users w).getD emptyUser).images_processed

/-- `current_property_id` of worker `w` as stored (absent doc reads as none). -/
def cpidOf (s : Store) (w : String) : Option String :=
  ((lookupA s.users w).getD emptyUser).current_property_id

/-- Outcome of one attempt of a store transaction: commit with a value, or a
store-reported optimistic-concurrency abort. -/
inductive TxnResult (α : Type) where
  | ok (a : α)
  | aborted
deriving DecidableEq, Repr

/-- Errors that the retry harness can surface to the caller: the
`RuntimeError` raised after the 5-attempt loop of `get_next_task` is
exhausted, or a store abort escaping an operation that has no retry loop. -/
inductive DriverErr where
  | fatal
  | abortedEsc
deriving DecidableEq, Repr

/-- Back-off sleep of `get_next_task`, in seconds:
`(2 ** attempt) * 0.1 * (1 + random())` with `random()` passed in as the
jitter sample. -/
def backoffDelay (attempt : Nat) (jitter : ℚ) : ℚ :=
  (2 ^ attempt) * (1 / 10) * (1 + jitter)

/-- The retry loop of `get_next_task` from attempt number `attempt` with
`fuel` tries left, recording the back-off sleeps performed.  `txn` gives the
outcome of each numbered attempt, `jitter` the `random()` sample drawn before
each sleep. -/
def gntRetryFrom {α : Type} (txn : Nat → TxnResult α) (jitter : Nat → ℚ)
    (attempt : Nat) : Nat → Except DriverErr α × List ℚ
  | 0 => (.error .fatal, [])
  | fuel + 1 =>
    match txn attempt with
    | .ok a => (.ok a, [])
    | .aborted =>
      let r := gntRetryFrom txn jitter (attempt + 1) fuel
      (r.1, backoffDelay attempt (jitter attempt) :: r.2)

/-- `get_next_task`'s driver: `for attempt in range(5): try ... except
Aborted: sleep; continue`, then `raise RuntimeError`. -/
def get_next_task_retry {α : Type} (txn : Nat → TxnResult α) (jitter : Nat → ℚ) :
    Except DriverErr α × List ℚ :=
  gntRetryFrom txn jitter 0 5

/-- `save_labels`'s driver: the transaction is invoked exactly once
(`_txn(self.db.transaction())`); an abort escapes to the caller and no
back-off sleep is performed. -/
def save_labels_driver {α : Type} (txn : Nat → TxnResult α) :
    Except DriverErr α × List ℚ :=
  match txn 0 with
  | .ok a => (.ok a, [])
  | .aborted => (.error .abortedEsc, [])

/-- `confirm_labels`'s driver: likewise a single invocation with no retry
loop of its own. -/
def confirm_labels_driver {α : Type} (txn : Nat → TxnResult α) :
    Except DriverErr α × List ℚ :=
  match txn 0 with
  | .ok a => (.ok a, [])
  | .aborted => (.error .abortedEsc, [])

/-- Run a sequence of `save_labels` calls on one image by one caller,
stopping at the first failure. -/
def saveSeq (s : Store) (image_id user_id : String) :
    List (Doc × Nat) → Except SaveErr Store
  | [] => .ok s
  | (p, t) :: rest =>
    match save_labels s image_id p user_id t with
    | .ok s2 => saveSeq s2 image_id user_id rest
    | .error e => .error e

/-- One label-document write step of `save_labels`: merge the payload plus
bookkeeping into the existing document, or create it with
`timestamp_created` on first save. -/
def labelStep (d? : Option Doc) (p : Doc) (t : Nat) : Doc :=
  match d? with
  | none => setDoc (setDoc p "updated_at" (.vTime t)) "timestamp_created" (.vTime t)
  | some d => mergeDoc d (setDoc p "updated_at" (.vTime t))

/-- The Label document produced by a sequence of saves, starting from an
optional existing document. -/
def labelDocSeq (d? : Option Doc) : List (Doc × Nat) → Option Doc
  | [] => d?
  | (p, t) :: rest => labelDocSeq (some (labelStep d? p t)) rest

/-- The revision records appended by a sequence of saves: each save that
finds an existing document archives it with the editor id and timestamp. -/
def revSeq (u : String) (d? : Option Doc) : List (Doc × Nat) → List Revision
  | [] => []
  | (p, t) :: rest =>
    match d? with
    | none => revSeq u (some (labelStep none p t)) rest
    | some d => { payload := d, edited_by := u, edited_at := t } :: revSeq u (some (labelStep (some d) p t)) rest

/-- All counters of every worker read as zero. -/
def ZeroCounters (s : Store) : Prop :=
  ∀ w, toReviewOf s w = 0 ∧ confirmedOf s w = 0 ∧ processedOf s w = 0

/-- The operation sequence contains only `save_labels`/`confirm_labels`. -/
def SaveConfirmOnly (ops : List Op) : Prop :=
  ∀ op ∈ ops, match op with
    | .gnt _ _ => False
    | _ => True

/-- The operation sequence contains only `get_next_task`/`save_labels`. -/
def GntSaveOnly (ops : List Op) : Prop :=
  ∀ op ∈ ops, match op with
    | .confirm _ _ _ => False
    | _ => True

/-- Single-writer discipline: every `save_labels` call on image `i` is made
by worker `W i`, with a payload (a field map with unique keys, as a Python
dict) carrying `labeled_by = W i`. -/
def SingleWriter (W : String → String) (ops : List Op) : Prop :=
  ∀ op ∈ ops, match op with
    | .save i p u _ =>
      u = W i ∧ lookupDoc p "labeled_by" = some (.vStr (W i)) ∧ (p.map Prod.fst).Nodup
    | _ => True

/-- The counter invariant of claim P3:
`images_to_review + images_confirmed` equals the number of this worker's
Label documents whose image sits in QA state pending/review/confirmed. -/
def CounterInv (s : Store) : Prop :=
  ∀ w, counterSum s w = (labelCount s w : Int)

/-- Property-affinity exclusivity: no two workers share a non-null
`current_property_id`. -/
def PropExcl (s : Store) : Prop :=
  ∀ w1 w2 p, w1 ≠ w2 → cpidOf s w1 = some p → cpidOf s w2 ≠ some p

/-! ### Witness fixtures -/

/-- A fresh unlabeled image with given upload time and property. -/
def imgU (tu : Nat) (pid : Option String) : Image :=
  { status := "unlabeled", qa_status := none, assigned_to := none,
    property_id := pid, flagged := .vNull, qa_feedback := none,
    confirmed_by := none, timestamp_uploaded := tu, timestamp_assigned := none,
    timestamp_labeled := none, timestamp_confirmed := none, task_expires_at := none }

/-- A QA-confirmed image used by witnesses. -/
def imgConf : Image := { imgU 1 (some "P1") with qa_status := some "confirmed" }

/-- Witness store: one confirmed image, one plain labeler. -/
def storeConf : Store :=
  { images := [("a", imgConf)], labels := [], revs := [],
    users := [("bob", emptyUser)] }

/-- Witness store: one unlabeled image, no users. -/
def storePlain : Store :=
  { images := [("a", imgU 1 (some "P1"))], labels := [], revs := [], users := [] }

/-- Witness store: image "a" labeled by alice, pending QA. -/
def storeLabeled : Store :=
  { images := [("a", { imgU 1 (some "P1") with status := "labeled", qa_status := some "pending" })],
    labels := [("a", [("labeled_by", .vStr "alice"), ("x", .vInt 1)])],
    revs := [], users := [("alice", emptyUser)] }

/-! ### Claim theorems -/

/-- Every Label on file is attributed (via `labeled_by`) to the image's
single writer `W i`. -/
def LabAttr (W : String → String) (s : Store) : Prop :=
  ∀ i d, lookupA s.labels i = some d → lookupDoc d "labeled_by" = some (.vStr (W i))

/-- Every image that has a Label sits in QA state pending/review/confirmed. -/
def LabQa (s : Store) : Prop :=
  ∀ i d, lookupA s.labels i = some d → qaCounted s i = true

/-- The inductive invariant for claim C1 under the single-writer discipline. -/
def C1Inv (W : String → String) (s : Store) : Prop :=
  WFStore s ∧ CounterInv s ∧ LabAttr W s ∧ LabQa s

/-- Two zero-counter workers and one unlabeled image. -/
def storeTwoUsers : Store :=
  { images := [("a", imgU 1 (some "P1"))], labels := [], revs := [],
    users := [("alice", emptyUser), ("bob", emptyUser)] }

/-- Alice submits the first label for image "a"; Bob then overwrites it
(both payloads carry `labeled_by` = the caller, as the UI does). -/
def opsCross : List Op :=
  [.save "a" [("labeled_by", .vStr "alice")] "alice" 10,
   .save "a" [("labeled_by", .vStr "bob")] "bob" 20]

/-- A single-writer sequence: alice saves twice, then an admin confirms. -/
def opsSW : List Op :=
  [.save "a" [("labeled_by", .vStr "alice"), ("x", .vInt 1)] "alice" 10,
   .save "a" [("labeled_by", .vStr "alice"), ("y", .vInt 2)] "alice" 20,
   .confirm "a" "adm" 30]

/-- The user document written by `get_next_task` when it clears an exhausted
property (`txn.update(user_ref, {"current_property_id": None})`). -/
def clearedUser (E : UserDoc) : UserDoc :=
  { role := E.role, current_property_id := none,
    images_to_review := E.images_to_review, images_confirmed := E.images_confirmed,
    images_processed := E.images_processed,
    last_labeled_image_id := E.last_labeled_image_id,
    timestamp_last_labeled := E.timestamp_last_labeled }

/-! ### Association-list lemmas -/

theorem lookupA_setA_self {β : Type} (l : List (String × β)) (k : String) (v : β) :
    lookupA (setA l k v) k = some v := by
  induction l with
  | nil => simp [setA, lookupA]
  | cons e t ih =>
    obtain ⟨k1, v1⟩ := e
    by_cases h : k1 = k
    · simp [setA, h, lookupA]
    · simp [setA, h, lookupA, ih]

theorem lookupA_setA_ne {β : Type} (l : List (String × β)) (k k2 : String) (v : β)
    (h : k2 ≠ k) : lookupA (setA l k v) k2 = lookupA l k2 := by
  have h2 : k ≠ k2 := Ne.symm h
  induction l with
  | nil => simp [setA, lookupA, h2]
  | cons e t ih =>
    obtain ⟨k1, v1⟩ := e
    by_cases hk : k1 = k
    · subst hk
      simp [setA, lookupA, h2]
    · simp [setA, hk, lookupA, ih]

theorem lookupA_mem {β : Type} {l : List (String × β)} {k : String} {v : β}
    (h : lookupA l k = some v) : (k, v) ∈ l := by
  induction l with
  | nil => simp [lookupA] at h
  | cons e t ih =>
    obtain ⟨k1, v1⟩ := e
    by_cases hk : k1 = k
    · subst hk
      simp [lookupA] at h
      simp [h]
    · simp [lookupA, hk] at h
      exact List.mem_cons_of_mem _ (ih h)

theorem lookupA_none_key {β : Type} {l : List (String × β)} {k : String}
    (h : lookupA l k = none) : ∀ e ∈ l, e.1 ≠ k := by
  induction l with
  | nil => simp
  | cons e t ih =>
    obtain ⟨k1, v1⟩ := e
    by_cases hk : k1 = k
    · simp [lookupA, hk] at h
    · simp [lookupA, hk] at h
      intro f hf
      rcases List.mem_cons.mp hf with hf1 | hf1
      · rw [hf1]
        exact hk
      · exact ih h f hf1

theorem setA_of_lookupA_none {β : Type} {l : List (String × β)} {k : String}
    (v : β) (h : lookupA l k = none) : setA l k v = l ++ [(k, v)] := by
  induction l with
  | nil => simp [setA]
  | cons e t ih =>
    obtain ⟨k1, v1⟩ := e
    by_cases hk : k1 = k
    · simp [lookupA, hk] at h
    · simp [lookupA, hk] at h
      simp [setA, hk, ih h]

theorem mem_setA {β : Type} {l : List (String × β)} {k : String} {v : β}
    {e : String × β} (h : e ∈ setA l k v) : e = (k, v) ∨ e ∈ l := by
  induction l with
  | nil => simp [setA] at h; simp [h]
  | cons f t ih =>
    obtain ⟨k1, v1⟩ := f
    by_cases hk : k1 = k
    · simp [setA, hk] at h
      rcases h with h | h
      · exact Or.inl h
      · exact Or.inr (List.mem_cons_of_mem _ h)
    · simp [setA, hk] at h
      rcases h with h | h
      · exact Or.inr (by simp [h])
      · rcases ih h with h2 | h2
        · exact Or.inl h2
        · exact Or.inr (List.mem_cons_of_mem _ h2)

theorem self_mem_setA {β : Type} (l : List (String × β)) (k : String) (v : β) :
    (k, v) ∈ setA l k v := by
  induction l with
  | nil => simp [setA]
  | cons f t ih =>
    obtain ⟨k1, v1⟩ := f
    by_cases hk : k1 = k
    · simp [setA, hk]
    · simp [setA, hk]
      exact Or.inr ih

theorem keys_setA_subset {β : Type} (l : List (String × β)) (k : String) (v : β) :
    ∀ k2 ∈ (setA l k v).map Prod.fst, k2 = k ∨ k2 ∈ l.map Prod.fst := by
  intro k2 hk2
  rcases List.mem_map.mp hk2 with ⟨e, he, hke⟩
  rcases mem_setA he with h | h
  · left; rw [← hke, h]
  · right; exact List.mem_map.mpr ⟨e, h, hke⟩

theorem nodup_keys_setA {β : Type} {l : List (String × β)} (k : String) (v : β)
    (h : (l.map Prod.fst).Nodup) : ((setA l k v).map Prod.fst).Nodup := by
  induction l with
  | nil => simp [setA]
  | cons f t ih =>
    obtain ⟨k1, v1⟩ := f
    rw [List.map_cons, List.nodup_cons] at h
    by_cases hk : k1 = k
    · subst hk
      rw [setA, if_pos rfl, List.map_cons, List.nodup_cons]
      exact h
    · rw [setA, if_neg hk, List.map_cons, List.nodup_cons]
      refine ⟨?_, ih h.2⟩
      intro hmem
      rcases List.mem_map.mp hmem with ⟨e, he, hke⟩
      rcases mem_setA he with h2 | h2
      · rw [h2] at hke
        exact hk hke.symm
      · exact h.1 (hke ▸ List.mem_map.mpr ⟨e, h2, rfl⟩)

theorem lookupA_of_mem_nodup {β : Type} {l : List (String × β)} {k : String} {v : β}
    (hnd : (l.map Prod.fst).Nodup) (h : (k, v) ∈ l) : lookupA l k = some v := by
  induction l with
  | nil => simp at h
  | cons f t ih =>
    obtain ⟨k1, v1⟩ := f
    rw [List.map_cons, List.nodup_cons] at hnd
    rcases List.mem_cons.mp h with h1 | h1
    · rw [Prod.mk.injEq] at h1
      simp [lookupA, h1.1, h1.2]
    · by_cases hk : k1 = k
      · subst hk
        exact absurd (List.mem_map.mpr ⟨(k1, v), h1, rfl⟩) hnd.1
      · simp [lookupA, hk]
        exact ih hnd.2 h1

/-! ### minByKey lemmas -/

theorem minByKey_eq_none {β : Type} {l : List (String × β)} :
    minByKey l = none ↔ l = [] := by
  cases l with
  | nil => simp [minByKey]
  | cons e t =>
    simp only [minByKey]
    cases minByKey t with
    | none => simp
    | some f =>
      by_cases h : e.1 ≤ f.1 <;> simp [h]

theorem minByKey_mem {β : Type} {l : List (String × β)} {e : String × β}
    (h : minByKey l = some e) : e ∈ l := by
  induction l with
  | nil => simp [minByKey] at h
  | cons f t ih =>
    simp only [minByKey] at h
    cases hm : minByKey t with
    | none =>
      rw [hm] at h
      simp at h
      simp [h]
    | some g =>
      rw [hm] at h
      by_cases hle : f.1 ≤ g.1
      · simp [hle] at h
        simp [h]
      · simp [hle] at h
        exact List.mem_cons_of_mem _ (ih (h ▸ hm))

theorem minByKey_le {β : Type} {l : List (String × β)} {e : String × β}
    (h : minByKey l = some e) : ∀ f ∈ l, e.1 ≤ f.1 := by
  induction l generalizing e with
  | nil => simp [minByKey] at h
  | cons g t ih =>
    simp only [minByKey] at h
    cases hm : minByKey t with
    | none =>
      rw [hm] at h
      simp at h
      intro f hf
      rw [minByKey_eq_none.mp hm] at hf
      simp at hf
      rw [← h, hf]
    | some g2 =>
      rw [hm] at h
      by_cases hle : g.1 ≤ g2.1
      · simp [hle] at h
        intro f hf
        rcases List.mem_cons.mp hf with hf1 | hf1
        · rw [← h, hf1]
        · rw [← h]
          exact le_trans hle (ih hm f hf1)
      · simp [hle] at h
        intro f hf
        rcases List.mem_cons.mp hf with hf1 | hf1
        · rw [← h, hf1]
          exact le_of_not_le hle
        · exact ih (by rw [hm, h]) f hf1

theorem minByKey_key_eq {β : Type} {l : List (String × β)} {k : String}
    (hmem : ∃ v, (k, v) ∈ l) (hle : ∀ f ∈ l, k ≤ f.1) :
    ∃ v, minByKey l = some (k, v) := by
  obtain ⟨v, hv⟩ := hmem
  cases hm : minByKey l with
  | none =>
    rw [minByKey_eq_none.mp hm] at hv
    simp at hv
  | some e =>
    obtain ⟨e1, e2⟩ := e
    have h1 : e1 ≤ k := minByKey_le hm (k, v) hv
    have h2 : k ≤ e1 := hle (e1, e2) (minByKey_mem hm)
    have h3 : e1 = k := le_antisymm h1 h2
    subst h3
    exact ⟨e2, rfl⟩

/-! ### findClaimable lemmas -/

theorem findClaimable_spec {users : List (String × UserDoc)} {uid : String}
    {cpid : Option String} {l : List (String × Image)} {c : String × Image}
    (h : findClaimable users uid cpid l = some c) :
    c ∈ l ∧ truthyOptStr c.2.property_id = true ∧ (c.2.property_id == cpid) = false ∧
      property_taken_by_other users uid (c.2.property_id.getD "") = false := by
  induction l with
  | nil => simp [findClaimable] at h
  | cons f t ih =>
    by_cases h1 : truthyOptStr f.2.property_id
    · by_cases h2 : (f.2.property_id == cpid) = true
      · rw [findClaimable, if_neg (by simp [h1]), if_pos h2] at h
        rcases ih h with ⟨hm, hs⟩
        exact ⟨List.mem_cons_of_mem _ hm, hs⟩
      · by_cases h3 : property_taken_by_other users uid (f.2.property_id.getD "") = true
        · rw [findClaimable, if_neg (by simp [h1]), if_neg h2, if_pos h3] at h
          rcases ih h with ⟨hm, hs⟩
          exact ⟨List.mem_cons_of_mem _ hm, hs⟩
        · rw [findClaimable, if_neg (by simp [h1]), if_neg h2, if_neg h3] at h
          cases h
          exact ⟨List.mem_cons_self _ _, by simp [h1], Bool.eq_false_iff.mpr h2,
            Bool.eq_false_iff.mpr h3⟩
    · rw [findClaimable, if_pos (by simp [h1])] at h
      rcases ih h with ⟨hm, hs⟩
      exact ⟨List.mem_cons_of_mem _ hm, hs⟩

theorem findClaimable_eq_none {users : List (String × UserDoc)} {uid : String}
    {cpid : Option String} {l : List (String × Image)}
    (h : ∀ c ∈ l, truthyOptStr c.2.property_id = false ∨ (c.2.property_id == cpid) = true ∨
      property_taken_by_other users uid (c.2.property_id.getD "") = true) :
    findClaimable users uid cpid l = none := by
  induction l with
  | nil => rfl
  | cons f t ih =>
    have ht : findClaimable users uid cpid t = none :=
      ih (fun c hc => h c (List.mem_cons_of_mem _ hc))
    rcases h f (List.mem_cons_self _ _) with h1 | h1 | h1
    · rw [findClaimable, if_pos (by simp [h1]), ht]
    · rw [findClaimable]
      by_cases h2 : truthyOptStr f.2.property_id
      · rw [if_neg (by simp [h2]), if_pos h1, ht]
      · rw [if_pos (by simp [Bool.eq_false_iff.mpr h2]), ht]
    · rw [findClaimable]
      by_cases h2 : truthyOptStr f.2.property_id
      · by_cases h3 : (f.2.property_id == cpid) = true
        · rw [if_neg (by simp [h2]), if_pos h3, ht]
        · rw [if_neg (by simp [h2]), if_neg h3, if_pos h1, ht]
      · rw [if_pos (by simp [Bool.eq_false_iff.mpr h2]), ht]

theorem findClaimable_none_spec {users : List (String × UserDoc)} {uid : String}
    {cpid : Option String} {l : List (String × Image)}
    (h : findClaimable users uid cpid l = none) :
    ∀ c ∈ l, truthyOptStr c.2.property_id = false ∨ (c.2.property_id == cpid) = true ∨
      property_taken_by_other users uid (c.2.property_id.getD "") = true := by
  induction l with
  | nil => simp
  | cons f t ih =>
    intro c hc
    by_cases h1 : truthyOptStr f.2.property_id
    · by_cases h2 : (f.2.property_id == cpid) = true
      · rw [findClaimable, if_neg (by simp [h1]), if_pos h2] at h
        rcases List.mem_cons.mp hc with hc1 | hc1
        · exact Or.inr (Or.inl (hc1 ▸ h2))
        · exact ih h c hc1
      · by_cases h3 : property_taken_by_other users uid (f.2.property_id.getD "") = true
        · rw [findClaimable, if_neg (by simp [h1]), if_neg h2, if_pos h3] at h
          rcases List.mem_cons.mp hc with hc1 | hc1
          · exact Or.inr (Or.inr (hc1 ▸ h3))
          · exact ih h c hc1
        · rw [findClaimable, if_neg (by simp [h1]), if_neg h2, if_neg h3] at h
          cases h
    · rw [findClaimable, if_pos (by simp [h1])] at h
      rcases List.mem_cons.mp hc with hc1 | hc1
      · exact Or.inl (hc1 ▸ Bool.eq_false_iff.mpr h1)
      · exact ih h c hc1

/-- C2 (confirmed immutability): when an Image document has
`qa_status == "confirmed"` and the caller's User document does not carry
`role == "admin"` (or does not exist), `save_labels` fails with the
PermissionDenied-class error, and — the failed transaction committing
nothing — the store (Image, Label, and the caller's counters) is unchanged. -/
theorem confirmed_image_rejects_nonadmin_save (s : Store) (i : String) (p : Doc)
    (u : String) (t : Nat) (im : Image)
    (him : lookupA s.images i = some im)
    (hconf : im.qa_status = some "confirmed")
    (hrole : ((lookupA s.users u).getD emptyUser).role ≠ some "admin") :
    save_labels s i p u t = .error .permissionDenied ∧ applyOp s (.save i p u t) = s := by
  have herr : save_labels s i p u t = .error .permissionDenied := by
    simp only [save_labels, him, hconf]
    cases hu : lookupA s.users u with
    | none => simp
    | some ud =>
      rw [hu] at hrole
      simp at hrole
      simp [hrole]
  exact ⟨herr, by simp [applyOp, herr]⟩

/-- C2 witness: a concrete confirmed image and a role-less caller. -/
theorem confirmed_image_rejects_nonadmin_save_witness :
    save_labels storeConf "a" [] "bob" 5 = .error .permissionDenied ∧
      applyOp storeConf (.save "a" [] "bob" 5) = storeConf :=
  confirmed_image_rejects_nonadmin_save storeConf "a" [] "bob" 5 imgConf
    (by decide) (by decide) (by decide)

/-- C9 (confirm on missing or already-confirmed image is a silent no-op):
`confirm_labels` returns normally (it is a total function into `Store`) and
leaves every document unchanged when the Image is absent, and likewise when
the Image already has `qa_status == "confirmed"`. -/
theorem confirm_labels_missing_or_confirmed_noop :
    (∀ s i a t, lookupA s.images i = none → confirm_labels s i a t = s) ∧
    (∀ s i a t im, lookupA s.images i = some im → im.qa_status = some "confirmed" →
      confirm_labels s i a t = s) := by
  constructor
  · intro s i a t h
    simp [confirm_labels, h]
  · intro s i a t im h hconf
    simp [confirm_labels, h, hconf]

/-- C9 witness: confirming a missing image id and an already-confirmed image,
both leaving the concrete store untouched. -/
theorem confirm_labels_missing_or_confirmed_noop_witness :
    confirm_labels storeConf "zzz" "adm" 9 = storeConf ∧
      confirm_labels storeConf "a" "adm" 9 = storeConf :=
  ⟨confirm_labels_missing_or_confirmed_noop.1 storeConf "zzz" "adm" 9 (by decide),
   confirm_labels_missing_or_confirmed_noop.2 storeConf "a" "adm" 9 imgConf
     (by decide) (by decide)⟩

/-- C6 (save_labels image-update frame): a successful `save_labels` rewrites
exactly `status`, `timestamp_labeled`, `task_expires_at`, `flagged` (copied
from the payload, `false` when absent) and `qa_status := "pending"` (whatever
it was before, including "review") on the Image; every other Image field —
`qa_feedback` in particular — is carried over unchanged, and no other Image
document is touched. -/
theorem save_labels_image_frame (s : Store) (i : String) (p : Doc) (u : String)
    (t : Nat) (s2 : Store) (im : Image)
    (him : lookupA s.images i = some im)
    (hok : save_labels s i p u t = .ok s2) :
    lookupA s2.images i = some { im with
      status := "labeled", timestamp_labeled := some t, task_expires_at := none,
      flagged := (lookupDoc p "flagged").getD (.vBool false),
      qa_status := some "pending" } ∧
    (∀ j, j ≠ i → lookupA s2.images j = lookupA s.images j) := by
  simp only [save_labels, him] at hok
  split at hok
  · cases hok
  · simp only [Except.ok.injEq] at hok
    subst hok
    refine ⟨lookupA_setA_self _ _ _, ?_⟩
    intro j hj
    exact lookupA_setA_ne _ _ _ _ hj

/-- C6 witness: saving a payload with `flagged = true` onto a previously
review-state image. -/
theorem save_labels_image_frame_witness :
    lookupA (applyOp storePlain (.save "a" [("flagged", .vBool true)] "bob" 7)).images "a" =
      some { imgU 1 (some "P1") with
        status := "labeled", timestamp_labeled := some 7, task_expires_at := none,
        flagged := .vBool true, qa_status := some "pending" } ∧
    (∀ j, j ≠ "a" →
      lookupA (applyOp storePlain (.save "a" [("flagged", .vBool true)] "bob" 7)).images j =
        lookupA storePlain.images j) := by
  have h := save_labels_image_frame storePlain "a" [("flagged", .vBool true)] "bob" 7
    (applyOp storePlain (.save "a" [("flagged", .vBool true)] "bob" 7)) (imgU 1 (some "P1"))
    (by decide) (by rfl)
  exact ⟨by rw [h.1]; rfl, h.2⟩

/-- C10 (revision attribution): when `save_labels` overwrites an existing
Label, the Revision record appended to the sub-collection stores the prior
full payload, the edit timestamp, and — in `edited_by` — the id of the
overwriting caller, not the `labeled_by` author of the archived payload. -/
theorem revision_records_overwriting_caller (s : Store) (i : String) (p : Doc)
    (u : String) (t : Nat) (s2 : Store) (prev : Doc)
    (hprev : lookupA s.labels i = some prev)
    (hok : save_labels s i p u t = .ok s2) :
    lookupA s2.revs i = some ((lookupA s.revs i).getD [] ++
      [{ payload := prev, edited_by := u, edited_at := t }]) := by
  simp only [save_labels, hprev] at hok
  split at hok
  · cases hok
  · split at hok
    · cases hok
    · simp only [Except.ok.injEq] at hok
      subst hok
      exact lookupA_setA_self _ _ _

/-- C10 witness: admin "carol" overwrites a label authored by "alice"; the
archived revision carries `edited_by = "carol"` while its payload still says
`labeled_by = "alice"`. -/
theorem revision_records_overwriting_caller_witness :
    lookupA (applyOp storeLabeled (.save "a" [("labeled_by", .vStr "carol")] "carol" 8)).revs "a" =
      some [{ payload := [("labeled_by", .vStr "alice"), ("x", .vInt 1)],
              edited_by := "carol", edited_at := 8 }] := by
  have h := revision_records_overwriting_caller storeLabeled "a"
    [("labeled_by", .vStr "carol")] "carol" 8
    (applyOp storeLabeled (.save "a" [("labeled_by", .vStr "carol")] "carol" 8))
    [("labeled_by", .vStr "alice"), ("x", .vInt 1)] (by decide) (by rfl)
  rw [h]
  rfl

/-- C8 (null-property images are never newly claimed): when neither the
revision-priority query nor the resume query matches (the new-claim path),
any image returned by `get_next_task` has a truthy `property_id`; images
whose `property_id` is null/missing (or empty) are skipped unconditionally
by both the affinity branch and the new-property branch. -/
theorem new_claim_skips_null_property (s : Store) (u : String) (t : Nat)
    (i : String) (im : Image)
    (hrev : minByKey (s.images.filter (fun e => reviewPredB u e.2)) = none)
    (hres : minByKey (s.images.filter (fun e => resumePredB u e.2)) = none)
    (htask : (get_next_task s u t).task = some (i, im)) :
    truthyOptStr im.property_id = true := by
  simp only [get_next_task, hrev, hres] at htask
  split at htask
  case isTrue hcp =>
    split at htask
    case h_1 c hfind =>
      simp only [TaskResult.task, Option.some.injEq, Prod.mk.injEq] at htask
      have hp0 := List.find?_some hfind
      simp only [] at hp0
      have hp : c.property_id = ((lookupA s.users u).getD emptyUser).current_property_id :=
        beq_iff_eq.mp hp0
      rw [← htask.2]
      simp only [hp]
      exact hcp
    case h_2 hfind =>
      split at htask
      case h_1 c hfc =>
        simp only [TaskResult.task, Option.some.injEq, Prod.mk.injEq] at htask
        rcases findClaimable_spec hfc with ⟨_, htru, _, _⟩
        rw [← htask.2]
        exact htru
      case h_2 hfc =>
        simp at htask
  case isFalse hcp =>
    split at htask
    case h_1 c hfc =>
      simp only [TaskResult.task, Option.some.injEq, Prod.mk.injEq] at htask
      rcases findClaimable_spec hfc with ⟨_, htru, _, _⟩
      rw [← htask.2]
      exact htru
    case h_2 hfc =>
      simp at htask

/-- C8 witness: from a store with no review/resume work, the claimed image
carries property "P1". -/
theorem new_claim_skips_null_property_witness :
    truthyOptStr ({ imgU 1 (some "P1") with
      status := "in_progress", assigned_to := some "bob" } : Image).property_id = true :=
  new_claim_skips_null_property storePlain "bob" 3 "a"
    { imgU 1 (some "P1") with status := "in_progress", assigned_to := some "bob" }
    (by decide) (by decide) (by rfl)

/-! ### Retry-harness lemmas (claim C5) -/

theorem gntRetryFrom_ok {α : Type} (txn : Nat → TxnResult α) (jitter : Nat → ℚ) :
    ∀ (fuel k start : Nat) (a : α), k < fuel →
    (∀ m, m < k → txn (start + m) = .aborted) → txn (start + k) = .ok a →
    gntRetryFrom txn jitter start fuel =
      (.ok a, (List.range k).map (fun m => backoffDelay (start + m) (jitter (start + m)))) := by
  intro fuel
  induction fuel with
  | zero =>
    intro k start a hk
    exact absurd hk (by omega)
  | succ f ih =>
    intro k start a hk hab hok
    cases k with
    | zero =>
      rw [Nat.add_zero] at hok
      simp [gntRetryFrom, hok]
    | succ k2 =>
      have hab0 : txn start = .aborted := by
        have h := hab 0 (by omega)
        rwa [Nat.add_zero] at h
      have hab2 : ∀ m, m < k2 → txn (start + 1 + m) = .aborted := by
        intro m hm
        rw [show start + 1 + m = start + (m + 1) by omega]
        exact hab (m + 1) (by omega)
      have hok2 : txn (start + 1 + k2) = .ok a := by
        rw [show start + 1 + k2 = start + (k2 + 1) by omega]
        exact hok
      rw [gntRetryFrom, hab0]
      dsimp only
      rw [ih k2 (start + 1) a (by omega) hab2 hok2]
      refine congrArg _ ?_
      rw [List.range_succ_eq_map, List.map_cons, List.map_map]
      refine congrArg₂ _ (by rw [Nat.add_zero]) ?_
      refine List.map_congr_left ?_
      intro m _
      simp only [Function.comp]
      rw [show start + 1 + m = start + (m + 1) by omega]

theorem gntRetryFrom_exhaust {α : Type} (txn : Nat → TxnResult α) (jitter : Nat → ℚ) :
    ∀ (fuel start : Nat), (∀ m, m < fuel → txn (start + m) = .aborted) →
    gntRetryFrom txn jitter start fuel =
      ((.error .fatal : Except DriverErr α),
        (List.range fuel).map (fun m => backoffDelay (start + m) (jitter (start + m)))) := by
  intro fuel
  induction fuel with
  | zero => intro start _; simp [gntRetryFrom]
  | succ f ih =>
    intro start hab
    have hab0 : txn start = .aborted := by
      have h := hab 0 (by omega)
      rwa [Nat.add_zero] at h
    have hab2 : ∀ m, m < f → txn (start + 1 + m) = .aborted := by
      intro m hm
      rw [show start + 1 + m = start + (m + 1) by omega]
      exact hab (m + 1) (by omega)
    rw [gntRetryFrom, hab0]
    dsimp only
    rw [ih (start + 1) hab2]
    refine congrArg _ ?_
    rw [List.range_succ_eq_map, List.map_cons, List.map_map]
    refine congrArg₂ _ (by rw [Nat.add_zero]) ?_
    refine List.map_congr_left ?_
    intro m _
    simp only [Function.comp]
    rw [show start + 1 + m = start + (m + 1) by omega]

/-- C5 counterexample: with a transaction that aborts once and then commits,
`get_next_task`'s harness retries (after one back-off sleep) and succeeds,
but `save_labels`'s and `confirm_labels`'s harnesses perform no retry at all:
the single abort escapes to the caller.  This falsifies the claim that all
three operations retry aborts with the same 5-attempt back-off policy. -/
theorem save_confirm_no_retry_counterexample :
    save_labels_driver (fun n => if n = 0 then .aborted else .ok 1) =
      ((.error .abortedEsc : Except DriverErr Nat), []) ∧
    confirm_labels_driver (fun n => if n = 0 then .aborted else .ok 1) =
      ((.error .abortedEsc : Except DriverErr Nat), []) ∧
    get_next_task_retry (fun n => if n = 0 then .aborted else .ok 1) (fun _ => 0) =
      ((.ok 1 : Except DriverErr Nat), [backoffDelay 0 0]) := by
  refine ⟨rfl, rfl, ?_⟩
  rfl

/-- C5 amended: only `get_next_task` wraps its transaction in the 5-attempt
exponential-back-off-with-jitter loop, raising the fatal `RuntimeError`
(never returning a value, in particular never `None`) once all 5 attempts
abort; `save_labels` and `confirm_labels` invoke their transaction exactly
once at the repository level, propagating a store abort to the caller with
no back-off and no repository-level retry. -/
theorem retry_policy_per_operation :
    (∀ (α : Type) (txn : Nat → TxnResult α) (jitter : Nat → ℚ) (k : Nat) (a : α),
      k < 5 → (∀ m, m < k → txn m = .aborted) → txn k = .ok a →
      get_next_task_retry txn jitter =
        (.ok a, (List.range k).map (fun m => backoffDelay m (jitter m)))) ∧
    (∀ (α : Type) (txn : Nat → TxnResult α) (jitter : Nat → ℚ),
      (∀ m, m < 5 → txn m = .aborted) →
      get_next_task_retry txn jitter =
        (.error .fatal, (List.range 5).map (fun m => backoffDelay m (jitter m)))) ∧
    (∀ (α : Type) (txn : Nat → TxnResult α),
      txn 0 = .aborted →
      save_labels_driver txn = (.error .abortedEsc, []) ∧
      confirm_labels_driver txn = (.error .abortedEsc, [])) ∧
    (∀ (α : Type) (txn : Nat → TxnResult α) (a : α),
      txn 0 = .ok a →
      save_labels_driver txn = (.ok a, []) ∧ confirm_labels_driver txn = (.ok a, [])) := by
  refine ⟨?_, ?_, ?_, ?_⟩
  · intro α txn jitter k a hk hab hok
    have h := gntRetryFrom_ok txn jitter 5 k 0 a hk (by simpa using hab) (by simpa using hok)
    rw [get_next_task_retry, h]
    simp
  · intro α txn jitter hab
    have h := gntRetryFrom_exhaust txn jitter 5 0 (by simpa using hab)
    rw [get_next_task_retry, h]
    simp
  · intro α txn hab
    exact ⟨by simp [save_labels_driver, hab], by simp [confirm_labels_driver, hab]⟩
  · intro α txn a hok
    exact ⟨by simp [save_labels_driver, hok], by simp [confirm_labels_driver, hok]⟩

/-- C5 witness: concrete outcome streams exercising the successful-retry
branch, the exhaustion branch, and the two single-shot drivers. -/
theorem retry_policy_per_operation_witness :
    get_next_task_retry (fun n => if n = 0 then .aborted else .ok 7) (fun _ => 1) =
      ((.ok 7 : Except DriverErr Nat), [backoffDelay 0 1]) ∧
    get_next_task_retry (fun _ => (.aborted : TxnResult Nat)) (fun _ => 0) =
      ((.error .fatal : Except DriverErr Nat),
        (List.range 5).map (fun m => backoffDelay m 0)) ∧
    save_labels_driver (fun _ => (.aborted : TxnResult Nat)) = (.error .abortedEsc, []) ∧
    confirm_labels_driver (fun n => if n = 0 then (.ok 3 : TxnResult Nat) else .aborted) =
      (.ok 3, []) := by
  refine ⟨?_, ?_, ?_, ?_⟩
  · have h := retry_policy_per_operation.1 Nat (fun n => if n = 0 then .aborted else .ok 7)
      (fun _ => 1) 1 7 (by omega) (by intro m hm; simp; omega) (by simp)
    rw [h]
    rfl
  · have h := retry_policy_per_operation.2.1 Nat (fun _ => .aborted) (fun _ => 0)
      (fun m _ => rfl)
    rw [h]
  · exact (retry_policy_per_operation.2.2.1 Nat (fun _ => .aborted) rfl).1
  · exact (retry_policy_per_operation.2.2.2 Nat
      (fun n => if n = 0 then (.ok 3 : TxnResult Nat) else .aborted) 3 (by simp)).2

/-! ### Save-sequence lemmas (claim C3) -/

theorem revSeq_length_some (u : String) :
    ∀ (ps : List (Doc × Nat)) (d : Doc), (revSeq u (some d) ps).length = ps.length := by
  intro ps
  induction ps with
  | nil => intro d; rfl
  | cons pt rest ih =>
    obtain ⟨p, t⟩ := pt
    intro d
    simp [revSeq, ih]

theorem revSeq_length_none (u : String) (ps : List (Doc × Nat)) :
    (revSeq u none ps).length = ps.length - 1 := by
  cases ps with
  | nil => rfl
  | cons pt rest =>
    obtain ⟨p, t⟩ := pt
    simp [revSeq, revSeq_length_some]

theorem revSeq_get_some (u : String) :
    ∀ (ps : List (Doc × Nat)) (d : Doc) (k : Nat) (rv : Revision),
    (revSeq u (some d) ps).get? k = some rv →
    some rv.payload = labelDocSeq (some d) (ps.take k) ∧ rv.edited_by = u ∧
      ∃ pt, ps.get? k = some pt ∧ rv.edited_at = pt.2 := by
  intro ps
  induction ps with
  | nil => intro d k rv h; simp [revSeq] at h
  | cons pt rest ih =>
    obtain ⟨p, t⟩ := pt
    intro d k rv h
    cases k with
    | zero =>
      simp [revSeq] at h
      rw [← h]
      exact ⟨rfl, rfl, (p, t), rfl, rfl⟩
    | succ k2 =>
      simp only [revSeq, List.get?_cons_succ] at h
      rcases ih (labelStep (some d) p t) k2 rv h with ⟨h1, h2, pt2, h3, h4⟩
      refine ⟨?_, h2, pt2, by simpa using h3, h4⟩
      rw [h1]
      rfl

theorem revSeq_get_none (u : String) (ps : List (Doc × Nat)) :
    ∀ (k : Nat) (rv : Revision), (revSeq u none ps).get? k = some rv →
    some rv.payload = labelDocSeq none (ps.take (k + 1)) ∧ rv.edited_by = u ∧
      ∃ pt, ps.get? (k + 1) = some pt ∧ rv.edited_at = pt.2 := by
  cases ps with
  | nil => intro k rv h; simp [revSeq] at h
  | cons pt rest =>
    obtain ⟨p, t⟩ := pt
    intro k rv h
    simp only [revSeq] at h
    rcases revSeq_get_some u rest (labelStep none p t) k rv h with ⟨h1, h2, pt2, h3, h4⟩
    refine ⟨?_, h2, pt2, by simpa using h3, h4⟩
    rw [h1]
    rfl

theorem save_labels_ok_of_not_confirmed (s : Store) (i : String) (p : Doc)
    (u : String) (t : Nat) (im : Image)
    (him : lookupA s.images i = some im) (hqa : im.qa_status ≠ some "confirmed") :
    ∃ s1, save_labels s i p u t = .ok s1 ∧
      lookupA s1.images i = some { im with
        status := "labeled", timestamp_labeled := some t, task_expires_at := none,
        flagged := (lookupDoc p "flagged").getD (.vBool false),
        qa_status := some "pending" } ∧
      lookupA s1.labels i = some (labelStep (lookupA s.labels i) p t) ∧
      (lookupA s1.revs i).getD [] = (lookupA s.revs i).getD [] ++
        (match lookupA s.labels i with
          | none => []
          | some prev => [{ payload := prev, edited_by := u, edited_at := t }]) := by
  have hnc : (im.qa_status == some "confirmed") = false := beq_eq_false_iff_ne.mpr hqa
  cases hd : lookupA s.labels i with
  | none =>
    cases hsl : save_labels s i p u t with
    | error e =>
      simp only [save_labels, him, hd, hnc, Bool.false_and, Bool.false_eq_true, if_false] at hsl
      exact Except.noConfusion hsl
    | ok s1 =>
      simp only [save_labels, him, hd, hnc, Bool.false_and, Bool.false_eq_true, if_false,
        Except.ok.injEq] at hsl
      refine ⟨s1, rfl, ?_, ?_, ?_⟩
      · rw [← hsl]
        exact lookupA_setA_self _ _ _
      · rw [← hsl, lookupA_setA_self]
        rfl
      · rw [← hsl]
        simp
  | some prev =>
    cases hsl : save_labels s i p u t with
    | error e =>
      simp only [save_labels, him, hd, hnc, Bool.false_and, Bool.false_eq_true, if_false] at hsl
      exact Except.noConfusion hsl
    | ok s1 =>
      simp only [save_labels, him, hd, hnc, Bool.false_and, Bool.false_eq_true, if_false,
        Except.ok.injEq] at hsl
      refine ⟨s1, rfl, ?_, ?_, ?_⟩
      · rw [← hsl]
        exact lookupA_setA_self _ _ _
      · rw [← hsl, lookupA_setA_self]
        rfl
      · rw [← hsl, lookupA_setA_self]
        rfl

theorem saveSeq_spec (i u : String) :
    ∀ (ps : List (Doc × Nat)) (s : Store) (im : Image) (r0 : List Revision) (d? : Option Doc),
    lookupA s.images i = some im → im.qa_status ≠ some "confirmed" →
    (lookupA s.revs i).getD [] = r0 → lookupA s.labels i = d? →
    ∃ s2, saveSeq s i u ps = .ok s2 ∧
      lookupA s2.labels i = labelDocSeq d? ps ∧
      (lookupA s2.revs i).getD [] = r0 ++ revSeq u d? ps := by
  intro ps
  induction ps with
  | nil =>
    intro s im r0 d? him hqa hr hd
    exact ⟨s, rfl, by simpa [labelDocSeq] using hd, by simpa [revSeq] using hr⟩
  | cons pt rest ih =>
    obtain ⟨p, t⟩ := pt
    intro s im r0 d? him hqa hr hd
    rcases save_labels_ok_of_not_confirmed s i p u t im him hqa with ⟨s1, hok, him1, hlab1, hrev1⟩
    rw [saveSeq, hok]
    dsimp only
    rw [hd] at hlab1 hrev1
    rcases ih s1 _ _ _ him1 (by simp) rfl hlab1 with ⟨s2, hs1, hs2, hs3⟩
    refine ⟨s2, hs1, ?_, ?_⟩
    · rw [hs2]
      cases d? <;> rfl
    · rw [hs3, hrev1]
      cases d? with
      | none => simp [revSeq, labelStep, hr]
      | some prev => simp [revSeq, labelStep, hr]

/-- C3 counterexample: two successful saves on the same image, the first with
field "fa", the second with only field "fb".  Because the Label is written
with `merge=True`, the final Label still contains "fa" — a field that is
neither in the 2nd (final) payload nor `updated_at`/`timestamp_created`
bookkeeping — so the current Label does not equal the Nth payload exactly. -/
theorem final_label_keeps_stale_fields_counterexample :
    lookupDoc ((lookupA (applyOps storePlain
        [.save "a" [("fa", .vInt 1)] "bob" 10,
         .save "a" [("fb", .vInt 2)] "bob" 20]).labels "a").getD []) "fa" =
      some (.vInt 1) ∧
    lookupDoc [("fb", .vInt 2)] "fa" = none ∧
    "fa" ≠ "updated_at" ∧ "fa" ≠ "timestamp_created" := by
  refine ⟨?_, by decide, by decide, by decide⟩
  rfl

/-- C3 amended (revision append-only, merged final payload): after N
successful saves of one image the `revisions` sub-collection holds exactly
N-1 records, the k-th holding the full Label document that was live
immediately before the (k+1)-st save (with the editor id and that save's
timestamp), and the records are only ever appended; the current Label equals
the left-to-right field-merge of all N payloads plus the
`updated_at`/`timestamp_created` bookkeeping (`labelDocSeq`) — fields from
earlier payloads absent from the Nth persist, rather than the Label equalling
the Nth payload exactly. -/
theorem revision_append_only_merged_final (s : Store) (i u : String)
    (ps : List (Doc × Nat)) (im : Image)
    (him : lookupA s.images i = some im) (hqa : im.qa_status ≠ some "confirmed")
    (hlab : lookupA s.labels i = none) (hrev : (lookupA s.revs i).getD [] = []) :
    ∃ s2, saveSeq s i u ps = .ok s2 ∧
      lookupA s2.labels i = labelDocSeq none ps ∧
      (lookupA s2.revs i).getD [] = revSeq u none ps ∧
      (revSeq u none ps).length = ps.length - 1 ∧
      (∀ k rv, (revSeq u none ps).get? k = some rv →
        some rv.payload = labelDocSeq none (ps.take (k + 1)) ∧ rv.edited_by = u ∧
        ∃ pt, ps.get? (k + 1) = some pt ∧ rv.edited_at = pt.2) := by
  rcases saveSeq_spec i u ps s im [] none him hqa hrev hlab with ⟨s2, h1, h2, h3⟩
  exact ⟨s2, h1, h2, by simpa using h3, revSeq_length_none u ps,
    revSeq_get_none u ps⟩

/-- C3 witness: three concrete saves; the amended claim instantiated on
them. -/
theorem revision_append_only_merged_final_witness :
    ∃ s2, saveSeq storePlain "a" "bob"
        [([("fa", .vInt 1)], 10), ([("fb", .vInt 2)], 20), ([("fa", .vInt 3)], 30)] = .ok s2 ∧
      lookupA s2.labels "a" =
        labelDocSeq none
          [([("fa", .vInt 1)], 10), ([("fb", .vInt 2)], 20), ([("fa", .vInt 3)], 30)] ∧
      (lookupA s2.revs "a").getD [] =
        revSeq "bob" none
          [([("fa", .vInt 1)], 10), ([("fb", .vInt 2)], 20), ([("fa", .vInt 3)], 30)] ∧
      (revSeq "bob" none
          [([("fa", .vInt 1)], 10), ([("fb", .vInt 2)], 20), ([("fa", .vInt 3)], 30)]).length =
        ([([("fa", .vInt 1)], 10), ([("fb", .vInt 2)], 20),
          ([("fa", .vInt 3)], 30)] : List (Doc × Nat)).length - 1 ∧
      (∀ k rv, (revSeq "bob" none
          [([("fa", .vInt 1)], 10), ([("fb", .vInt 2)], 20), ([("fa", .vInt 3)], 30)]).get? k =
            some rv →
        some rv.payload = labelDocSeq none
          ([([("fa", .vInt 1)], 10), ([("fb", .vInt 2)], 20),
            ([("fa", .vInt 3)], 30)].take (k + 1)) ∧ rv.edited_by = "bob" ∧
        ∃ pt, ([([("fa", .vInt 1)], 10), ([("fb", .vInt 2)], 20),
            ([("fa", .vInt 3)], 30)] : List (Doc × Nat)).get? (k + 1) = some pt ∧
          rv.edited_at = pt.2) :=
  revision_append_only_merged_final storePlain "a" "bob"
    [([("fa", .vInt 1)], 10), ([("fb", .vInt 2)], 20), ([("fa", .vInt 3)], 30)]
    (imgU 1 (some "P1")) (by decide) (by decide) (by decide) (by decide)

/-! ### Merge-lookup and filter-counting lemmas (claim C1) -/

theorem lookupA_eq_none_of_not_mem {β : Type} {l : List (String × β)} {k : String}
    (h : k ∉ l.map Prod.fst) : lookupA l k = none := by
  induction l with
  | nil => rfl
  | cons e t ih =>
    obtain ⟨k1, v1⟩ := e
    rw [List.map_cons, List.mem_cons] at h
    push_neg at h
    have hk : k1 ≠ k := fun hh => h.1 hh.symm
    rw [lookupA, if_neg hk]
    exact ih h.2

theorem lookupDoc_mergeDoc_not_mem {old new : Doc} {k : String}
    (h : lookupA new k = none) : lookupDoc (mergeDoc old new) k = lookupDoc old k := by
  induction new generalizing old with
  | nil => rfl
  | cons e rest ih =>
    obtain ⟨k1, v1⟩ := e
    by_cases hk : k1 = k
    · simp [lookupA, hk] at h
    · simp only [lookupA, if_neg hk] at h
      show lookupDoc (mergeDoc (setDoc old k1 v1) rest) k = lookupDoc old k
      rw [ih h]
      exact lookupA_setA_ne _ _ _ _ (fun hh => hk hh.symm)

theorem lookupDoc_mergeDoc_of_lookup {old new : Doc} {k : String} {v : DocVal}
    (hnd : (new.map Prod.fst).Nodup) (h : lookupDoc new k = some v) :
    lookupDoc (mergeDoc old new) k = some v := by
  induction new generalizing old with
  | nil => simp [lookupDoc, lookupA] at h
  | cons e rest ih =>
    obtain ⟨k1, v1⟩ := e
    rw [List.map_cons, List.nodup_cons] at hnd
    by_cases hk : k1 = k
    · subst hk
      have hv : v1 = v := by
        simp [lookupDoc, lookupA] at h
        exact h
      subst hv
      have hrest : lookupA rest k1 = none :=
        lookupA_eq_none_of_not_mem hnd.1
      show lookupDoc (mergeDoc (setDoc old k1 v1) rest) k1 = some v1
      rw [lookupDoc_mergeDoc_not_mem hrest]
      exact lookupA_setA_self _ _ _
    · simp only [lookupDoc, lookupA, if_neg hk] at h
      show lookupDoc (mergeDoc (setDoc old k1 v1) rest) k = some v
      exact ih hnd.2 h

theorem filter_length_congr {β : Type} {l : List (String × β)}
    {p q : String × β → Bool} (h : ∀ e ∈ l, q e = p e) :
    (l.filter q).length = (l.filter p).length := by
  rw [List.filter_congr h]

theorem filter_length_setA_new {β : Type} {l : List (String × β)} {k : String}
    (v : β) (p q : String × β → Bool)
    (hl : lookupA l k = none)
    (hcong : ∀ e ∈ l, e.1 ≠ k → q e = p e) :
    ((setA l k v).filter q).length = (l.filter p).length + (if q (k, v) then 1 else 0) := by
  rw [setA_of_lookupA_none v hl, List.filter_append]
  rw [List.length_append]
  have h1 : (l.filter q).length = (l.filter p).length :=
    filter_length_congr (fun e he => hcong e he (lookupA_none_key hl e he))
  rw [h1]
  congr 1
  by_cases hq : q (k, v) = true
  · simp [List.filter_cons, hq]
  · simp [List.filter_cons, hq]

theorem filter_length_setA_replace {β : Type} {l : List (String × β)} {k : String}
    {w : β} (v : β) (p q : String × β → Bool)
    (hnd : (l.map Prod.fst).Nodup) (hl : lookupA l k = some w)
    (hcong : ∀ e ∈ l, e.1 ≠ k → q e = p e) :
    ((setA l k v).filter q).length + (if p (k, w) then 1 else 0) =
      (l.filter p).length + (if q (k, v) then 1 else 0) := by
  induction l with
  | nil => simp [lookupA] at hl
  | cons e t ih =>
    obtain ⟨k1, v1⟩ := e
    rw [List.map_cons, List.nodup_cons] at hnd
    by_cases hk : k1 = k
    · subst hk
      have hw : v1 = w := by
        simp [lookupA] at hl
        exact hl
      subst hw
      rw [setA, if_pos rfl]
      have ht : ∀ e ∈ t, e.1 ≠ k1 :=
        fun e he hke => hnd.1 (hke ▸ List.mem_map.mpr ⟨e, he, rfl⟩)
      have hft : (t.filter q).length = (t.filter p).length :=
        filter_length_congr (fun e he => hcong e (List.mem_cons_of_mem _ he) (ht e he))
      by_cases hq : q (k1, v) = true <;> by_cases hp : p (k1, v1) = true <;>
        simp [List.filter_cons, hq, hp, hft]
    · rw [setA, if_neg hk]
      simp only [lookupA, if_neg hk] at hl
      have hcong2 : ∀ e ∈ t, e.1 ≠ k → q e = p e :=
        fun e he => hcong e (List.mem_cons_of_mem _ he)
      have hcong1 : q (k1, v1) = p (k1, v1) :=
        hcong (k1, v1) (List.mem_cons_self _ _) hk
      have := ih hnd.2 hl hcong2
      by_cases hq : q (k1, v1) = true
      · have hp : p (k1, v1) = true := hcong1 ▸ hq
        simp only [List.filter_cons, hq, hp, if_true, List.length_cons]
        omega
      · have hp : p (k1, v1) = false := by
          rw [← hcong1]
          exact Bool.eq_false_iff.mpr hq
        simp only [List.filter_cons, hq, hp, Bool.false_eq_true, if_false]
        omega

theorem C1Inv_save (W : String → String) (s : Store) (i : String) (p : Doc)
    (u : String) (t : Nat)
    (hu : u = W i) (hpl : lookupDoc p "labeled_by" = some (.vStr (W i)))
    (hpnd : (p.map Prod.fst).Nodup) (hinv : C1Inv W s) :
    C1Inv W (applyOp s (.save i p u t)) := by
  cases hsl : save_labels s i p u t with
  | error e => simpa [applyOp, hsl] using hinv
  | ok s2 =>
    have happ : applyOp s (.save i p u t) = s2 := by simp [applyOp, hsl]
    rw [happ]
    obtain ⟨hwf, hcnt, hattr, hqa⟩ := hinv
    obtain ⟨hwfI, hwfL, hwfR, hwfU⟩ := hwf
    cases him : lookupA s.images i with
    | none =>
      exfalso
      simp only [save_labels, him] at hsl
      simp at hsl
    | some im =>
      cases hd : lookupA s.labels i with
      | none =>
        simp only [save_labels, him, hd] at hsl
        split at hsl
        · exact Except.noConfusion hsl
        · rw [Except.ok.injEq] at hsl
          have hI2 : s2.images = setA s.images i { im with
              status := "labeled", timestamp_labeled := some t, task_expires_at := none,
              flagged := (lookupDoc p "flagged").getD (.vBool false),
              qa_status := some "pending" } := by rw [← hsl]
          have hL2 : s2.labels = setA s.labels i
              (setDoc (setDoc p "updated_at" (.vTime t)) "timestamp_created" (.vTime t)) := by
            rw [← hsl]
          have hR2 : s2.revs = s.revs := by rw [← hsl]
          have hU2 : s2.users = setA s.users u
              { role := ((lookupA s.users u).getD emptyUser).role,
                current_property_id := ((lookupA s.users u).getD emptyUser).current_property_id,
                images_to_review := ((lookupA s.users u).getD emptyUser).images_to_review + 1,
                images_confirmed := ((lookupA s.users u).getD emptyUser).images_confirmed,
                images_processed := ((lookupA s.users u).getD emptyUser).images_processed + 1,
                last_labeled_image_id := some i,
                timestamp_last_labeled := some t } := by rw [← hsl]
          have hNL : lookupDoc (setDoc (setDoc p "updated_at" (.vTime t))
              "timestamp_created" (.vTime t)) "labeled_by" = some (.vStr (W i)) := by
            rw [lookupDoc, setDoc, lookupA_setA_ne _ _ _ _ (by decide), setDoc,
              lookupA_setA_ne _ _ _ _ (by decide)]
            exact hpl
          have hqaNe : ∀ j, j ≠ i → qaCounted s2 j = qaCounted s j := by
            intro j hj
            simp only [qaCounted, hI2, lookupA_setA_ne _ _ _ _ hj]
          have hqaI : qaCounted s2 i = true := by
            simp [qaCounted, hI2, lookupA_setA_self]
          refine ⟨⟨by rw [hI2]; exact nodup_keys_setA _ _ hwfI,
            by rw [hL2]; exact nodup_keys_setA _ _ hwfL,
            by rw [hR2]; exact hwfR,
            by rw [hU2]; exact nodup_keys_setA _ _ hwfU⟩, ?_, ?_, ?_⟩
          · -- CounterInv
            intro w
            have hcong : ∀ e ∈ s.labels, e.1 ≠ i →
                (fun e2 : String × Doc => lookupDoc e2.2 "labeled_by" == some (.vStr w) &&
                  qaCounted s2 e2.1) e =
                (fun e2 : String × Doc => lookupDoc e2.2 "labeled_by" == some (.vStr w) &&
                  qaCounted s e2.1) e := by
              intro e he hei
              simp only [hqaNe e.1 hei]
            have hlen := filter_length_setA_new
              (l := s.labels) (k := i)
              (setDoc (setDoc p "updated_at" (.vTime t)) "timestamp_created" (.vTime t))
              (fun e2 : String × Doc => lookupDoc e2.2 "labeled_by" == some (.vStr w) &&
                qaCounted s e2.1)
              (fun e2 : String × Doc => lookupDoc e2.2 "labeled_by" == some (.vStr w) &&
                qaCounted s2 e2.1)
              hd hcong
            simp only [hNL, hqaI, Bool.and_true, beq_iff_eq, Option.some.injEq,
              DocVal.vStr.injEq] at hlen
            have hcS := hcnt w
            simp only [labelCount, counterSum] at hcS ⊢
            rw [hL2, hlen, hU2]
            by_cases hw : w = u
            · subst hw
              rw [if_pos hu.symm, lookupA_setA_self]
              simp only [Option.getD_some]
              push_cast
              omega
            · rw [if_neg (fun hh => hw (hh.symm.trans hu.symm)),
                lookupA_setA_ne _ _ _ _ hw]
              push_cast
              omega
          · -- LabAttr
            intro j d hj
            rw [hL2] at hj
            by_cases hji : j = i
            · subst hji
              rw [lookupA_setA_self] at hj
              rw [← Option.some.injEq _ _ |>.mp hj]
              exact hNL
            · rw [lookupA_setA_ne _ _ _ _ hji] at hj
              exact hattr j d hj
          · -- LabQa
            intro j d hj
            rw [hL2] at hj
            by_cases hji : j = i
            · subst hji
              exact hqaI
            · rw [lookupA_setA_ne _ _ _ _ hji] at hj
              rw [hqaNe j hji]
              exact hqa j d hj
      | some prev =>
        simp only [save_labels, him, hd] at hsl
        split at hsl
        · exact Except.noConfusion hsl
        · rw [Except.ok.injEq] at hsl
          have hI2 : s2.images = setA s.images i { im with
              status := "labeled", timestamp_labeled := some t, task_expires_at := none,
              flagged := (lookupDoc p "flagged").getD (.vBool false),
              qa_status := some "pending" } := by rw [← hsl]
          have hL2 : s2.labels = setA s.labels i
              (mergeDoc prev (setDoc p "updated_at" (.vTime t))) := by rw [← hsl]
          have hU2 : s2.users = setA s.users u
              { role := ((lookupA s.users u).getD emptyUser).role,
                current_property_id := ((lookupA s.users u).getD emptyUser).current_property_id,
                images_to_review := ((lookupA s.users u).getD emptyUser).images_to_review,
                images_confirmed := ((lookupA s.users u).getD emptyUser).images_confirmed,
                images_processed := ((lookupA s.users u).getD emptyUser).images_processed,
                last_labeled_image_id := some i,
                timestamp_last_labeled := some t } := by rw [← hsl]
          have hR2 : s2.revs = setA s.revs i (((lookupA s.revs i).getD []) ++
              [{ payload := prev, edited_by := u, edited_at := t }]) := by rw [← hsl]
          have hNL : lookupDoc (mergeDoc prev (setDoc p "updated_at" (.vTime t)))
              "labeled_by" = some (.vStr (W i)) := by
            refine lookupDoc_mergeDoc_of_lookup (nodup_keys_setA _ _ hpnd) ?_
            rw [lookupDoc, setDoc, lookupA_setA_ne _ _ _ _ (by decide)]
            exact hpl
          have hprevL : lookupDoc prev "labeled_by" = some (.vStr (W i)) := hattr i prev hd
          have hqaS : qaCounted s i = true := hqa i prev hd
          have hqaNe : ∀ j, j ≠ i → qaCounted s2 j = qaCounted s j := by
            intro j hj
            simp only [qaCounted, hI2, lookupA_setA_ne _ _ _ _ hj]
          have hqaI : qaCounted s2 i = true := by
            simp [qaCounted, hI2, lookupA_setA_self]
          refine ⟨⟨by rw [hI2]; exact nodup_keys_setA _ _ hwfI,
            by rw [hL2]; exact nodup_keys_setA _ _ hwfL,
            by rw [hR2]; exact nodup_keys_setA _ _ hwfR,
            by rw [hU2]; exact nodup_keys_setA _ _ hwfU⟩, ?_, ?_, ?_⟩
          · -- CounterInv
            intro w
            have hcong : ∀ e ∈ s.labels, e.1 ≠ i →
                (fun e2 : String × Doc => lookupDoc e2.2 "labeled_by" == some (.vStr w) &&
                  qaCounted s2 e2.1) e =
                (fun e2 : String × Doc => lookupDoc e2.2 "labeled_by" == some (.vStr w) &&
                  qaCounted s e2.1) e := by
              intro e he hei
              simp only [hqaNe e.1 hei]
            have hlen := filter_length_setA_replace
              (l := s.labels) (k := i) (w := prev)
              (mergeDoc prev (setDoc p "updated_at" (.vTime t)))
              (fun e2 : String × Doc => lookupDoc e2.2 "labeled_by" == some (.vStr w) &&
                qaCounted s e2.1)
              (fun e2 : String × Doc => lookupDoc e2.2 "labeled_by" == some (.vStr w) &&
                qaCounted s2 e2.1)
              hwfL hd hcong
            simp only [hNL, hprevL, hqaS, hqaI, Bool.and_true] at hlen
            have hlen2 := Nat.add_right_cancel hlen
            have hcS := hcnt w
            simp only [labelCount, counterSum] at hcS ⊢
            rw [hL2, hU2, hlen2]
            by_cases hw : w = u
            · subst hw
              rw [lookupA_setA_self]
              simp only [Option.getD_some]
              omega
            · rw [lookupA_setA_ne _ _ _ _ hw]
              omega
          · -- LabAttr
            intro j d hj
            rw [hL2] at hj
            by_cases hji : j = i
            · subst hji
              rw [lookupA_setA_self] at hj
              rw [← Option.some.injEq _ _ |>.mp hj]
              exact hNL
            · rw [lookupA_setA_ne _ _ _ _ hji] at hj
              exact hattr j d hj
          · -- LabQa
            intro j d hj
            rw [hL2] at hj
            by_cases hji : j = i
            · subst hji
              exact hqaI
            · rw [lookupA_setA_ne _ _ _ _ hji] at hj
              rw [hqaNe j hji]
              exact hqa j d hj

theorem labelCount_images_setA (s s2 : Store) (i : String) (im2 : Image)
    (hL2 : s2.labels = s.labels) (hI2 : s2.images = setA s.images i im2)
    (hwfL : (s.labels.map Prod.fst).Nodup)
    (hqaOld : ∀ d, lookupA s.labels i = some d → qaCounted s i = true)
    (hqaNew : qaCounted s2 i = true) :
    ∀ w, labelCount s2 w = labelCount s w := by
  intro w
  simp only [labelCount, hL2]
  refine filter_length_congr ?_
  intro e he
  by_cases hei : e.1 = i
  · obtain ⟨e1, e2⟩ := e
    simp only at hei
    subst hei
    have hlk : lookupA s.labels e1 = some e2 := lookupA_of_mem_nodup hwfL he
    have h1 := hqaOld e2 hlk
    simp only [h1, hqaNew]
  · have h3 : qaCounted s2 e.1 = qaCounted s e.1 := by
      simp only [qaCounted, hI2, lookupA_setA_ne _ _ _ _ hei]
    simp only [h3]

theorem C1Inv_confirm (W : String → String) (s : Store) (i a : String) (t : Nat)
    (hinv : C1Inv W s) : C1Inv W (confirm_labels s i a t) := by
  cases him : lookupA s.images i with
  | none =>
    have heq : confirm_labels s i a t = s := by simp [confirm_labels, him]
    rw [heq]
    exact hinv
  | some im =>
    by_cases hconf : (im.qa_status == some "confirmed") = true
    · have heq : confirm_labels s i a t = s := by simp [confirm_labels, him, hconf]
      rw [heq]
      exact hinv
    · obtain ⟨⟨hwfI, hwfL, hwfR, hwfU⟩, hcnt, hattr, hqa⟩ := hinv
      obtain ⟨s2, hs2⟩ : ∃ x, confirm_labels s i a t = x := ⟨_, rfl⟩
      rw [hs2]
      cases hl : lookupA s.labels i with
      | none =>
        have hI2 : s2.images = setA s.images i { im with
            qa_status := some "confirmed", qa_feedback := none, assigned_to := none,
            confirmed_by := some a, timestamp_confirmed := some t } := by
          rw [← hs2]
          simp [confirm_labels, him, hconf, hl]
        have hL2 : s2.labels = s.labels := by
          rw [← hs2]
          simp [confirm_labels, him, hconf, hl]
        have hR2 : s2.revs = s.revs := by
          rw [← hs2]
          simp [confirm_labels, him, hconf, hl]
        have hU2 : s2.users = s.users := by
          rw [← hs2]
          simp [confirm_labels, him, hconf, hl]
        have hqaI2 : qaCounted s2 i = true := by
          simp [qaCounted, hI2, lookupA_setA_self]
        have hcnt2 := labelCount_images_setA s s2 i _ hL2 hI2 hwfL
          (fun d hd => hqa i d hd) hqaI2
        refine ⟨⟨by rw [hI2]; exact nodup_keys_setA _ _ hwfI, by rw [hL2]; exact hwfL,
          by rw [hR2]; exact hwfR, by rw [hU2]; exact hwfU⟩, ?_, ?_, ?_⟩
        · intro w
          rw [hcnt2 w]
          simp only [counterSum, hU2]
          exact hcnt w
        · intro j d hj
          rw [hL2] at hj
          exact hattr j d hj
        · intro j d hj
          rw [hL2] at hj
          by_cases hji : j = i
          · subst hji
            exact hqaI2
          · have h3 : qaCounted s2 j = qaCounted s j := by
              simp only [qaCounted, hI2, lookupA_setA_ne _ _ _ _ hji]
            rw [h3]
            exact hqa j d hj
      | some d =>
        have hlb := hattr i d hl
        by_cases hW : (W i == "") = true
        · have hI2 : s2.images = setA s.images i { im with
              qa_status := some "confirmed", qa_feedback := none, assigned_to := none,
              confirmed_by := some a, timestamp_confirmed := some t } := by
            rw [← hs2]
            simp [confirm_labels, him, hconf, hl, hlb, hW]
          have hL2 : s2.labels = s.labels := by
            rw [← hs2]
            simp [confirm_labels, him, hconf, hl, hlb, hW]
          have hR2 : s2.revs = s.revs := by
            rw [← hs2]
            simp [confirm_labels, him, hconf, hl, hlb, hW]
          have hU2 : s2.users = s.users := by
            rw [← hs2]
            simp [confirm_labels, him, hconf, hl, hlb, hW]
          have hqaI2 : qaCounted s2 i = true := by
            simp [qaCounted, hI2, lookupA_setA_self]
          have hcnt2 := labelCount_images_setA s s2 i _ hL2 hI2 hwfL
            (fun d2 hd2 => hqa i d2 hd2) hqaI2
          refine ⟨⟨by rw [hI2]; exact nodup_keys_setA _ _ hwfI, by rw [hL2]; exact hwfL,
            by rw [hR2]; exact hwfR, by rw [hU2]; exact hwfU⟩, ?_, ?_, ?_⟩
          · intro w
            rw [hcnt2 w]
            simp only [counterSum, hU2]
            exact hcnt w
          · intro j d2 hj
            rw [hL2] at hj
            exact hattr j d2 hj
          · intro j d2 hj
            rw [hL2] at hj
            by_cases hji : j = i
            · subst hji
              exact hqaI2
            · have h3 : qaCounted s2 j = qaCounted s j := by
                simp only [qaCounted, hI2, lookupA_setA_ne _ _ _ _ hji]
              rw [h3]
              exact hqa j d2 hj
        · have hI2 : s2.images = setA s.images i { im with
              qa_status := some "confirmed", qa_feedback := none, assigned_to := none,
              confirmed_by := some a, timestamp_confirmed := some t } := by
            rw [← hs2]
            simp [confirm_labels, him, hconf, hl, hlb, hW]
          have hL2 : s2.labels = s.labels := by
            rw [← hs2]
            simp [confirm_labels, him, hconf, hl, hlb, hW]
          have hR2 : s2.revs = s.revs := by
            rw [← hs2]
            simp [confirm_labels, him, hconf, hl, hlb, hW]
          have hU2 : s2.users = setA s.users (W i)
              { role := ((lookupA s.users (W i)).getD emptyUser).role,
                current_property_id := ((lookupA s.users (W i)).getD emptyUser).current_property_id,
                images_to_review := ((lookupA s.users (W i)).getD emptyUser).images_to_review - 1,
                images_confirmed := ((lookupA s.users (W i)).getD emptyUser).images_confirmed + 1,
                images_processed := ((lookupA s.users (W i)).getD emptyUser).images_processed,
                last_labeled_image_id := ((lookupA s.users (W i)).getD emptyUser).last_labeled_image_id,
                timestamp_last_labeled := ((lookupA s.users (W i)).getD emptyUser).timestamp_last_labeled } := by
            rw [← hs2]
            simp [confirm_labels, him, hconf, hl, hlb, hW]
          have hqaI2 : qaCounted s2 i = true := by
            simp [qaCounted, hI2, lookupA_setA_self]
          have hcnt2 := labelCount_images_setA s s2 i _ hL2 hI2 hwfL
            (fun d2 hd2 => hqa i d2 hd2) hqaI2
          refine ⟨⟨by rw [hI2]; exact nodup_keys_setA _ _ hwfI, by rw [hL2]; exact hwfL,
            by rw [hR2]; exact hwfR, by rw [hU2]; exact nodup_keys_setA _ _ hwfU⟩, ?_, ?_, ?_⟩
          · intro w
            rw [hcnt2 w]
            have hcS := hcnt w
            simp only [counterSum, hU2] at hcS ⊢
            by_cases hw : w = W i
            · subst hw
              rw [lookupA_setA_self]
              simp only [Option.getD_some]
              omega
            · rw [lookupA_setA_ne _ _ _ _ hw]
              omega
          · intro j d2 hj
            rw [hL2] at hj
            exact hattr j d2 hj
          · intro j d2 hj
            rw [hL2] at hj
            by_cases hji : j = i
            · subst hji
              exact hqaI2
            · have h3 : qaCounted s2 j = qaCounted s j := by
                simp only [qaCounted, hI2, lookupA_setA_ne _ _ _ _ hji]
              rw [h3]
              exact hqa j d2 hj

theorem C1Inv_applyOps (W : String → String) :
    ∀ (ops : List Op) (s : Store), C1Inv W s → SaveConfirmOnly ops → SingleWriter W ops →
    C1Inv W (applyOps s ops) := by
  intro ops
  induction ops with
  | nil => intro s h _ _; exact h
  | cons op rest ih =>
    intro s h hsc hsw
    simp only [applyOps, List.foldl_cons]
    have h1 : C1Inv W (applyOp s op) := by
      cases op with
      | gnt u t => exact (hsc _ (List.mem_cons_self _ _)).elim
      | save i p u t =>
        have hw := hsw _ (List.mem_cons_self _ _)
        exact C1Inv_save W s i p u t hw.1 hw.2.1 hw.2.2 h
      | confirm i a2 t => exact C1Inv_confirm W s i a2 t h
    exact ih _ h1 (fun o ho => hsc o (List.mem_cons_of_mem _ ho))
      (fun o ho => hsw o (List.mem_cons_of_mem _ ho))

/-- C1 counterexample: starting from zeroed counters and no labels, the
save/confirm sequence in which Bob overwrites Alice's label (each payload
carrying `labeled_by` = its caller) leaves Alice with
`images_to_review + images_confirmed = 1` while she has zero Label documents
left — the overwrite reassigned `labeled_by` to Bob with no counter
movement, so the claimed equality fails. -/
theorem counter_invariant_counterexample :
    WFStore storeTwoUsers ∧ storeTwoUsers.labels = [] ∧ ZeroCounters storeTwoUsers ∧
    SaveConfirmOnly opsCross ∧
    lookupDoc [("labeled_by", .vStr "alice")] "labeled_by" = some (.vStr "alice") ∧
    lookupDoc [("labeled_by", .vStr "bob")] "labeled_by" = some (.vStr "bob") ∧
    counterSum (applyOps storeTwoUsers opsCross) "alice" ≠
      (labelCount (applyOps storeTwoUsers opsCross) "alice" : Int) := by
  refine ⟨⟨by decide, by decide, by decide, by decide⟩, rfl, ?_, ?_, by decide, by decide,
    by decide⟩
  · intro w
    have h : (lookupA storeTwoUsers.users w).getD emptyUser = emptyUser := by
      simp only [storeTwoUsers, lookupA]
      split_ifs <;> rfl
    exact ⟨by simp only [toReviewOf, h]; rfl, by simp only [confirmedOf, h]; rfl,
      by simp only [processedOf, h]; rfl⟩
  · intro op hop
    simp only [opsCross, List.mem_cons, List.not_mem_nil, or_false] at hop
    rcases hop with rfl | rfl <;> trivial

/-- C1 amended (counter correctness under single-writer discipline): starting
from zeroed counters and no labels, after any sequence of serialized
`save_labels`/`confirm_labels` operations in which each image is only ever
saved by one worker whose payload records `labeled_by` = that worker,
`images_to_review + images_confirmed` equals the number of that worker's
Label documents whose image has `qa_status` in {pending, review, confirmed};
without the single-writer proviso the equality can fail (a second worker
overwriting an existing Label reassigns `labeled_by` without any counter
movement).  Unconditionally, `save_labels` increments `images_to_review` and
`images_processed` by exactly 1 (and touches no other worker's counters, and
nobody's `images_confirmed`) only when no Label document existed before the
transaction, and a save over an existing Label leaves all three counters of
every worker unchanged. -/
theorem counter_invariant_single_writer :
    (∀ (s0 : Store) (ops : List Op) (W : String → String),
      WFStore s0 → s0.labels = [] → ZeroCounters s0 →
      SaveConfirmOnly ops → SingleWriter W ops →
      ∀ w, counterSum (applyOps s0 ops) w = (labelCount (applyOps s0 ops) w : Int)) ∧
    (∀ (s : Store) (i : String) (p : Doc) (u : String) (t : Nat) (s2 : Store),
      save_labels s i p u t = .ok s2 →
      ((∃ d, lookupA s.labels i = some d) →
        ∀ w, toReviewOf s2 w = toReviewOf s w ∧ confirmedOf s2 w = confirmedOf s w ∧
          processedOf s2 w = processedOf s w) ∧
      (lookupA s.labels i = none →
        toReviewOf s2 u = toReviewOf s u + 1 ∧ processedOf s2 u = processedOf s u + 1 ∧
        confirmedOf s2 u = confirmedOf s u ∧
        (∀ w, w ≠ u → toReviewOf s2 w = toReviewOf s w ∧
          confirmedOf s2 w = confirmedOf s w ∧ processedOf s2 w = processedOf s w))) := by
  constructor
  · intro s0 ops W hwf hlab hz hsc hsw
    have hinv0 : C1Inv W s0 := by
      refine ⟨hwf, ?_, ?_, ?_⟩
      · intro w
        have h1 := (hz w).1
        have h2 := (hz w).2.1
        simp only [toReviewOf] at h1
        simp only [confirmedOf] at h2
        simp only [counterSum, labelCount, hlab, List.filter_nil, List.length_nil, h1, h2]
        rfl
      · intro j d hj
        rw [hlab] at hj
        simp [lookupA] at hj
      · intro j d hj
        rw [hlab] at hj
        simp [lookupA] at hj
    exact (C1Inv_applyOps W ops s0 hinv0 hsc hsw).2.1
  · intro s i p u t s2 hok
    cases him : lookupA s.images i with
    | none =>
      exfalso
      simp only [save_labels, him] at hok
      simp at hok
    | some im =>
      constructor
      · rintro ⟨d, hd⟩ w
        simp only [save_labels, him, hd] at hok
        split at hok
        · exact Except.noConfusion hok
        · rw [Except.ok.injEq] at hok
          have hU2 : s2.users = setA s.users u
              { role := ((lookupA s.users u).getD emptyUser).role,
                current_property_id := ((lookupA s.users u).getD emptyUser).current_property_id,
                images_to_review := ((lookupA s.users u).getD emptyUser).images_to_review,
                images_confirmed := ((lookupA s.users u).getD emptyUser).images_confirmed,
                images_processed := ((lookupA s.users u).getD emptyUser).images_processed,
                last_labeled_image_id := some i,
                timestamp_last_labeled := some t } := by rw [← hok]
          simp only [toReviewOf, confirmedOf, processedOf, hU2]
          by_cases hw : w = u
          · subst hw
            rw [lookupA_setA_self]
            simp [Option.getD_some]
          · rw [lookupA_setA_ne _ _ _ _ hw]
            simp
      · intro hd
        simp only [save_labels, him, hd] at hok
        split at hok
        · exact Except.noConfusion hok
        · rw [Except.ok.injEq] at hok
          have hU2 : s2.users = setA s.users u
              { role := ((lookupA s.users u).getD emptyUser).role,
                current_property_id := ((lookupA s.users u).getD emptyUser).current_property_id,
                images_to_review := ((lookupA s.users u).getD emptyUser).images_to_review + 1,
                images_confirmed := ((lookupA s.users u).getD emptyUser).images_confirmed,
                images_processed := ((lookupA s.users u).getD emptyUser).images_processed + 1,
                last_labeled_image_id := some i,
                timestamp_last_labeled := some t } := by rw [← hok]
          simp only [toReviewOf, confirmedOf, processedOf, hU2]
          refine ⟨?_, ?_, ?_, ?_⟩
          · rw [lookupA_setA_self]
            simp [Option.getD_some]
          · rw [lookupA_setA_self]
            simp [Option.getD_some]
          · rw [lookupA_setA_self]
            simp [Option.getD_some]
          · intro w hw
            rw [lookupA_setA_ne _ _ _ _ hw]
            simp

/-- C1 witness: the single-writer sequence `opsSW` on a concrete store, both
for the sequence invariant (read at worker "alice") and for the local
counter effects of a first save and a re-save. -/
theorem counter_invariant_single_writer_witness :
    counterSum (applyOps storeTwoUsers opsSW) "alice" =
      (labelCount (applyOps storeTwoUsers opsSW) "alice" : Int) ∧
    (toReviewOf (applyOp storeTwoUsers
        (.save "a" [("labeled_by", .vStr "alice"), ("x", .vInt 1)] "alice" 10)) "alice" =
      toReviewOf storeTwoUsers "alice" + 1) := by
  constructor
  · refine counter_invariant_single_writer.1 storeTwoUsers opsSW (fun _ => "alice")
      ⟨by decide, by decide, by decide, by decide⟩ rfl ?_ ?_ ?_ "alice"
    · intro w
      have h : (lookupA storeTwoUsers.users w).getD emptyUser = emptyUser := by
        simp only [storeTwoUsers, lookupA]
        split_ifs <;> rfl
      exact ⟨by simp only [toReviewOf, h]; rfl, by simp only [confirmedOf, h]; rfl,
        by simp only [processedOf, h]; rfl⟩
    · intro op hop
      simp only [opsSW, List.mem_cons, List.not_mem_nil, or_false] at hop
      rcases hop with rfl | rfl | rfl <;> trivial
    · intro op hop
      simp only [opsSW, List.mem_cons, List.not_mem_nil, or_false] at hop
      rcases hop with rfl | rfl | rfl
      · exact ⟨rfl, by decide, by decide⟩
      · exact ⟨rfl, by decide, by decide⟩
      · trivial
  · exact ((counter_invariant_single_writer.2 storeTwoUsers "a"
      [("labeled_by", .vStr "alice"), ("x", .vInt 1)] "alice" 10 _ (by rfl)).2 (by decide)).1

/-! ### get_next_task effect lemmas (claim C4) -/

theorem no_other_holder_of_claim (s : Store) (u : String)
    (cands : List (String × Image)) (i : String) (c : Image)
    (hwfU : (s.users.map Prod.fst).Nodup)
    (heq3 : findClaimable s.users u
      ((lookupA s.users u).getD emptyUser).current_property_id cands = some (i, c)) :
    ∀ w, w ≠ u → cpidOf s w ≠ some (c.property_id.getD "") := by
  rcases findClaimable_spec heq3 with ⟨hmem, htru, hne, htaken⟩
  dsimp only at htru hne htaken
  intro w hw hcw
  have hlk : ∃ d, lookupA s.users w = some d ∧
      d.current_property_id = some (c.property_id.getD "") := by
    cases hl : lookupA s.users w with
    | none => simp [cpidOf, hl, emptyUser] at hcw
    | some d =>
      simp only [cpidOf, hl, Option.getD_some] at hcw
      exact ⟨d, rfl, hcw⟩
  obtain ⟨d, hl, hdq⟩ := hlk
  have hmem2 : (w, d) ∈ s.users.filter
      (fun e => e.2.current_property_id == some (c.property_id.getD "")) := by
    refine List.mem_filter.mpr ⟨lookupA_mem hl, ?_⟩
    rw [hdq]
    exact beq_self_eq_true _
  cases hmk : minByKey (s.users.filter
      (fun e => e.2.current_property_id == some (c.property_id.getD ""))) with
  | none =>
    rw [minByKey_eq_none.mp hmk] at hmem2
    cases hmem2
  | some e =>
    have htk := htaken
    rw [property_taken_by_other, hmk] at htk
    have heu : e.1 = u := by simpa using htk
    have hef := List.mem_filter.mp (minByKey_mem hmk)
    have hlu : lookupA s.users u = some e.2 := by
      rw [← heu]
      exact lookupA_of_mem_nodup hwfU hef.1
    have hcpu : ((lookupA s.users u).getD emptyUser).current_property_id =
        some (c.property_id.getD "") := by
      rw [hlu]
      simpa using hef.2
    have hcq : c.property_id = some (c.property_id.getD "") := by
      cases hp : c.property_id with
      | none => simp [hp, truthyOptStr] at htru
      | some q0 => simp [hp]
    rw [hcq, hcpu] at hne
    simp at hne

theorem gnt_effect (s : Store) (u : String) (t : Nat) (hwf : WFStore s) :
    WFStore (get_next_task s u t).store ∧
    (∀ w, w ≠ u → cpidOf (get_next_task s u t).store w = cpidOf s w) ∧
    (cpidOf (get_next_task s u t).store u = cpidOf s u ∨
     cpidOf (get_next_task s u t).store u = none ∨
     (∃ q, cpidOf (get_next_task s u t).store u = some q ∧
        ∀ w, w ≠ u → cpidOf s w ≠ some q)) := by
  obtain ⟨hwfI, hwfL, hwfR, hwfU⟩ := hwf
  simp only [get_next_task]
  split
  · -- revision-priority branch: users untouched
    exact ⟨⟨nodup_keys_setA _ _ hwfI, hwfL, hwfR, hwfU⟩, fun w _ => rfl, Or.inl rfl⟩
  · split
    · -- resume branch: store unchanged
      exact ⟨⟨hwfI, hwfL, hwfR, hwfU⟩, fun w _ => rfl, Or.inl rfl⟩
    · -- claim stage
      split
      · -- affinity branch guard true
        split
        · -- 2a claim: users untouched
          exact ⟨⟨nodup_keys_setA _ _ hwfI, hwfL, hwfR, hwfU⟩, fun w _ => rfl, Or.inl rfl⟩
        · -- step2b
          split
          next i c heq3 =>
            refine ⟨⟨nodup_keys_setA _ _ hwfI, hwfL, hwfR, nodup_keys_setA _ _ hwfU⟩,
              ?_, ?_⟩
            · intro w hw
              simp only [cpidOf, lookupA_setA_ne _ _ _ _ hw]
            · refine Or.inr (Or.inr ⟨c.property_id.getD "", ?_, ?_⟩)
              · simp [cpidOf, lookupA_setA_self]
              · exact no_other_holder_of_claim s u _ i c hwfU heq3
          next heq3 =>
            refine ⟨⟨hwfI, hwfL, hwfR, nodup_keys_setA _ _ hwfU⟩, ?_, ?_⟩
            · intro w hw
              simp only [cpidOf, lookupA_setA_ne _ _ _ _ hw]
            · refine Or.inr (Or.inl ?_)
              simp [cpidOf, lookupA_setA_self]
      · -- affinity guard false: step2b directly
        split
        next i c heq3 =>
          refine ⟨⟨nodup_keys_setA _ _ hwfI, hwfL, hwfR, nodup_keys_setA _ _ hwfU⟩,
            ?_, ?_⟩
          · intro w hw
            simp only [cpidOf, lookupA_setA_ne _ _ _ _ hw]
          · refine Or.inr (Or.inr ⟨c.property_id.getD "", ?_, ?_⟩)
            · simp [cpidOf, lookupA_setA_self]
            · exact no_other_holder_of_claim s u _ i c hwfU heq3
        next heq3 =>
          exact ⟨⟨hwfI, hwfL, hwfR, hwfU⟩, fun w _ => rfl, Or.inl rfl⟩

theorem save_effect (s : Store) (i : String) (p : Doc) (u : String) (t : Nat)
    (hwf : WFStore s) :
    WFStore (applyOp s (.save i p u t)) ∧
    (∀ w, cpidOf (applyOp s (.save i p u t)) w = cpidOf s w) := by
  cases hsl : save_labels s i p u t with
  | error e =>
    have happ : applyOp s (.save i p u t) = s := by simp [applyOp, hsl]
    rw [happ]
    exact ⟨hwf, fun w => rfl⟩
  | ok s2 =>
    have happ : applyOp s (.save i p u t) = s2 := by simp [applyOp, hsl]
    rw [happ]
    obtain ⟨hwfI, hwfL, hwfR, hwfU⟩ := hwf
    cases him : lookupA s.images i with
    | none =>
      exfalso
      simp only [save_labels, him] at hsl
      simp at hsl
    | some im =>
      cases hd : lookupA s.labels i with
      | none =>
        simp only [save_labels, him, hd] at hsl
        split at hsl
        · exact Except.noConfusion hsl
        · rw [Except.ok.injEq] at hsl
          have hI2 : s2.images = setA s.images i { im with
              status := "labeled", timestamp_labeled := some t, task_expires_at := none,
              flagged := (lookupDoc p "flagged").getD (.vBool false),
              qa_status := some "pending" } := by rw [← hsl]
          have hL2 : s2.labels = setA s.labels i
              (setDoc (setDoc p "updated_at" (.vTime t)) "timestamp_created" (.vTime t)) := by
            rw [← hsl]
          have hR2 : s2.revs = s.revs := by rw [← hsl]
          have hU2 : s2.users = setA s.users u
              { role := ((lookupA s.users u).getD emptyUser).role,
                current_property_id := ((lookupA s.users u).getD emptyUser).current_property_id,
                images_to_review := ((lookupA s.users u).getD emptyUser).images_to_review + 1,
                images_confirmed := ((lookupA s.users u).getD emptyUser).images_confirmed,
                images_processed := ((lookupA s.users u).getD emptyUser).images_processed + 1,
                last_labeled_image_id := some i,
                timestamp_last_labeled := some t } := by rw [← hsl]
          refine ⟨⟨by rw [hI2]; exact nodup_keys_setA _ _ hwfI,
            by rw [hL2]; exact nodup_keys_setA _ _ hwfL,
            by rw [hR2]; exact hwfR,
            by rw [hU2]; exact nodup_keys_setA _ _ hwfU⟩, ?_⟩
          intro w
          by_cases hw : w = u
          · subst hw
            simp [cpidOf, hU2, lookupA_setA_self]
          · simp only [cpidOf, hU2, lookupA_setA_ne _ _ _ _ hw]
      | some prev =>
        simp only [save_labels, him, hd] at hsl
        split at hsl
        · exact Except.noConfusion hsl
        · rw [Except.ok.injEq] at hsl
          have hI2 : s2.images = setA s.images i { im with
              status := "labeled", timestamp_labeled := some t, task_expires_at := none,
              flagged := (lookupDoc p "flagged").getD (.vBool false),
              qa_status := some "pending" } := by rw [← hsl]
          have hL2 : s2.labels = setA s.labels i
              (mergeDoc prev (setDoc p "updated_at" (.vTime t))) := by rw [← hsl]
          have hR2 : s2.revs = setA s.revs i (((lookupA s.revs i).getD []) ++
              [{ payload := prev, edited_by := u, edited_at := t }]) := by rw [← hsl]
          have hU2 : s2.users = setA s.users u
              { role := ((lookupA s.users u).getD emptyUser).role,
                current_property_id := ((lookupA s.users u).getD emptyUser).current_property_id,
                images_to_review := ((lookupA s.users u).getD emptyUser).images_to_review,
                images_confirmed := ((lookupA s.users u).getD emptyUser).images_confirmed,
                images_processed := ((lookupA s.users u).getD emptyUser).images_processed,
                last_labeled_image_id := some i,
                timestamp_last_labeled := some t } := by rw [← hsl]
          refine ⟨⟨by rw [hI2]; exact nodup_keys_setA _ _ hwfI,
            by rw [hL2]; exact nodup_keys_setA _ _ hwfL,
            by rw [hR2]; exact nodup_keys_setA _ _ hwfR,
            by rw [hU2]; exact nodup_keys_setA _ _ hwfU⟩, ?_⟩
          intro w
          by_cases hw : w = u
          · subst hw
            simp [cpidOf, hU2, lookupA_setA_self]
          · simp only [cpidOf, hU2, lookupA_setA_ne _ _ _ _ hw]

/-- C4 (property affinity exclusivity): starting from a well-formed store in
which no two workers share a non-null `current_property_id`, that exclusivity
is preserved by every interleaving of serialized
`get_next_task`/`save_labels` transactions; and `get_next_task` changes a
worker's `current_property_id` to a (non-null) property only when its
same-transaction read of the users collection found no other worker holding
that property. -/
theorem property_affinity_exclusivity :
    (∀ (s0 : Store) (ops : List Op),
      WFStore s0 → PropExcl s0 → GntSaveOnly ops → PropExcl (applyOps s0 ops)) ∧
    (∀ (s : Store) (u : String) (t : Nat) (q : String),
      WFStore s → cpidOf (get_next_task s u t).store u = some q →
      cpidOf s u ≠ some q → ∀ w, w ≠ u → cpidOf s w ≠ some q) := by
  constructor
  · have main : ∀ (ops : List Op) (s : Store), WFStore s ∧ PropExcl s → GntSaveOnly ops →
        WFStore (applyOps s ops) ∧ PropExcl (applyOps s ops) := by
      intro ops
      induction ops with
      | nil => exact fun s h _ => h
      | cons op rest ih =>
        intro s h hgs
        simp only [applyOps, List.foldl_cons]
        refine ih _ ?_ (fun o ho => hgs o (List.mem_cons_of_mem _ ho))
        cases op with
        | gnt v tv =>
          obtain ⟨hwfg, hchg, hor⟩ := gnt_effect s v tv h.1
          refine ⟨hwfg, ?_⟩
          intro w1 w2 q hne h1 h2
          simp only [applyOp] at h1 h2
          by_cases hw1 : w1 = v
          · subst hw1
            rcases hor with heq | hnone | ⟨q2, hq2, hnho⟩
            · rw [heq] at h1
              have hne2 : w2 ≠ w1 := fun hh => hne hh.symm
              rw [hchg w2 hne2] at h2
              exact h.2 w1 w2 q hne h1 h2
            · rw [hnone] at h1
              cases h1
            · rw [hq2] at h1
              have hq2q : q2 = q := Option.some.injEq _ _ |>.mp h1
              have hne2 : w2 ≠ w1 := fun hh => hne hh.symm
              rw [hchg w2 hne2] at h2
              exact hnho w2 hne2 (hq2q ▸ h2)
          · by_cases hw2 : w2 = v
            · subst hw2
              rw [hchg w1 hw1] at h1
              rcases hor with heq | hnone | ⟨q2, hq2, hnho⟩
              · rw [heq] at h2
                exact h.2 w1 w2 q hne h1 h2
              · rw [hnone] at h2
                cases h2
              · rw [hq2] at h2
                have hq2q : q2 = q := Option.some.injEq _ _ |>.mp h2
                exact hnho w1 hw1 (hq2q ▸ h1)
            · rw [hchg w1 hw1] at h1
              rw [hchg w2 hw2] at h2
              exact h.2 w1 w2 q hne h1 h2
        | save i p v tv =>
          obtain ⟨hwfs, hchg⟩ := save_effect s i p v tv h.1
          refine ⟨hwfs, ?_⟩
          intro w1 w2 q hne h1 h2
          rw [hchg w1] at h1
          rw [hchg w2] at h2
          exact h.2 w1 w2 q hne h1 h2
        | confirm i a tv => exact (hgs _ (List.mem_cons_self _ _)).elim
    exact fun s0 ops hwf hpe hgs => (main ops s0 ⟨hwf, hpe⟩ hgs).2
  · intro s u t q hwf hset hbefore w hw
    rcases (gnt_effect s u t hwf).2.2 with heq | hnone | ⟨q2, hq2, hnho⟩
    · rw [heq] at hset
      exact absurd hset hbefore
    · rw [hnone] at hset
      cases hset
    · rw [hq2] at hset
      have : q2 = q := Option.some.injEq _ _ |>.mp hset
      exact this ▸ hnho w hw

/-- C4 witness: a gnt/save/gnt interleaving on a concrete store, plus the
claim-only-after-read property instantiated at the concrete claim of
property "P1" by "alice", checked against "bob". -/
theorem property_affinity_exclusivity_witness :
    PropExcl (applyOps storeTwoUsers
      [.gnt "alice" 5, .save "a" [("labeled_by", .vStr "alice")] "alice" 10, .gnt "bob" 20]) ∧
    cpidOf storeTwoUsers "bob" ≠ some "P1" := by
  have hpe : PropExcl storeTwoUsers := by
    intro w1 w2 q hne h1
    exfalso
    have h : (lookupA storeTwoUsers.users w1).getD emptyUser = emptyUser := by
      simp only [storeTwoUsers, lookupA]
      split_ifs <;> rfl
    simp only [cpidOf, h] at h1
    simp [emptyUser] at h1
  constructor
  · refine property_affinity_exclusivity.1 storeTwoUsers _
      ⟨by decide, by decide, by decide, by decide⟩ hpe ?_
    intro op hop
    simp only [List.mem_cons, List.not_mem_nil, or_false] at hop
    rcases hop with rfl | rfl | rfl <;> trivial
  · exact property_affinity_exclusivity.2 storeTwoUsers "alice" 5 "P1"
      ⟨by decide, by decide, by decide, by decide⟩ (by decide) (by decide) "bob" (by decide)

/-! ### Query-stability lemmas (claim C7) -/

theorem mem_insertTU {x e : String × Image} {l : List (String × Image)}
    (h : e ∈ insertTU x l) : e = x ∨ e ∈ l := by
  induction l with
  | nil =>
    simp [insertTU] at h
    exact Or.inl h
  | cons y ys ih =>
    rw [insertTU] at h
    by_cases hle : tuKeyLe x y = true
    · rw [if_pos hle] at h
      rcases List.mem_cons.mp h with h1 | h1
      · exact Or.inl h1
      · exact Or.inr h1
    · rw [if_neg hle] at h
      rcases List.mem_cons.mp h with h1 | h1
      · exact Or.inr (by simp [h1])
      · rcases ih h1 with h2 | h2
        · exact Or.inl h2
        · exact Or.inr (List.mem_cons_of_mem _ h2)

theorem mem_sortTU {e : String × Image} {l : List (String × Image)}
    (h : e ∈ sortTU l) : e ∈ l := by
  induction l with
  | nil => simp [sortTU] at h
  | cons y ys ih =>
    rw [sortTU, List.foldr_cons] at h
    rcases mem_insertTU h with h1 | h1
    · simp [h1]
    · exact List.mem_cons_of_mem _ (ih (by rw [sortTU]; exact h1))

theorem minByKey_filter_setA_eq_key {l : List (String × Image)}
    {q : String × Image → Bool} {k : String} {v : Image} (v2 : Image)
    (hmin : minByKey (l.filter q) = some (k, v))
    (hq : q (k, v2) = true) :
    ∃ v3, minByKey ((setA l k v2).filter q) = some (k, v3) := by
  refine minByKey_key_eq ⟨v2, List.mem_filter.mpr ⟨self_mem_setA l k v2, hq⟩⟩ ?_
  intro f hf
  rcases List.mem_filter.mp hf with ⟨hfm, hfq⟩
  rcases mem_setA hfm with hfe | hfe
  · rw [hfe]
  · exact minByKey_le hmin f (List.mem_filter.mpr ⟨hfe, hfq⟩)

theorem filter_setA_all_fail {β : Type} {l : List (String × β)}
    {q : String × β → Bool} (k : String) (v : β)
    (hfail : ∀ e ∈ l, q e = false) :
    (setA l k v).filter q = if q (k, v) = true then [(k, v)] else [] := by
  induction l with
  | nil =>
    rw [setA]
    by_cases hq : q (k, v) = true
    · simp [List.filter_cons, hq]
    · simp [List.filter_cons, hq]
  | cons e t ih =>
    obtain ⟨k1, v1⟩ := e
    have h1 : q (k1, v1) = false := hfail _ (List.mem_cons_self _ _)
    have ht : ∀ e ∈ t, q e = false := fun e he => hfail e (List.mem_cons_of_mem _ he)
    have htnil : t.filter q = [] := by
      rw [List.filter_eq_nil_iff]
      intro a ha
      simp [ht a ha]
    by_cases hk : k1 = k
    · subst hk
      rw [setA, if_pos rfl]
      by_cases hq : q (k1, v) = true
      · simp [List.filter_cons, hq, h1, htnil]
      · simp [List.filter_cons, hq, h1, htnil]
    · rw [setA, if_neg hk, List.filter_cons, h1]
      simp only [Bool.false_eq_true, if_false]
      exact ih ht

theorem filter_setA_unchanged {β : Type} {l : List (String × β)}
    {q : String × β → Bool} {k : String} {w : β} (v : β)
    (hl : lookupA l k = some w) (hw : q (k, w) = false) (hv : q (k, v) = false) :
    (setA l k v).filter q = l.filter q := by
  induction l with
  | nil => simp [lookupA] at hl
  | cons e t ih =>
    obtain ⟨k1, v1⟩ := e
    by_cases hk : k1 = k
    · subst hk
      have hw1 : v1 = w := by
        simp [lookupA] at hl
        exact hl
      subst hw1
      rw [setA, if_pos rfl, List.filter_cons, List.filter_cons, hw, hv]
      simp
    · rw [setA, if_neg hk]
      simp only [lookupA, if_neg hk] at hl
      rw [List.filter_cons, List.filter_cons, ih hl]

theorem gnt_second_call_key (s simg : Store) (u : String) (t2 : Nat) (i : String)
    (im2 : Image)
    (hsimg : simg.images = setA s.images i im2)
    (hrevfail : ∀ e ∈ s.images, reviewPredB u e.2 = false)
    (hresfail : ∀ e ∈ s.images, resumePredB u e.2 = false)
    (hres2 : resumePredB u im2 = true) :
    ((get_next_task simg u t2).task).map Prod.fst = some i := by
  have hrv2 := filter_setA_all_fail (l := s.images)
    (q := fun e : String × Image => reviewPredB u e.2) i im2 (fun e he => hrevfail e he)
  have hrs2 := filter_setA_all_fail (l := s.images)
    (q := fun e : String × Image => resumePredB u e.2) i im2 (fun e he => hresfail e he)
  simp only [get_next_task, hsimg, hrv2, hrs2]
  by_cases hqrev : reviewPredB u im2 = true
  · rw [if_pos (by exact hqrev)]
    simp [minByKey]
  · rw [if_neg (by exact hqrev), if_pos (by exact hres2)]
    simp [minByKey]

/-- C7 (resume idempotence): calling `get_next_task` twice in a row for the
same worker with no intervening operation returns the same image (by id) both
times — whichever branch the first call took; and in particular, when the
revision-priority query is empty and the worker already holds an
`in_progress` image, `get_next_task` returns that image and leaves the store
untouched. -/
theorem get_next_task_idempotent :
    (∀ (s : Store) (u : String) (t1 t2 : Nat),
      ((get_next_task (get_next_task s u t1).store u t2).task).map Prod.fst =
        ((get_next_task s u t1).task).map Prod.fst) ∧
    (∀ (s : Store) (u : String) (t : Nat) (i : String) (im : Image),
      minByKey (s.images.filter (fun e => reviewPredB u e.2)) = none →
      minByKey (s.images.filter (fun e => resumePredB u e.2)) = some (i, im) →
      get_next_task s u t = ⟨s, some (i, im)⟩) := by
  constructor
  · intro s u t1 t2
    cases hrev : minByKey (s.images.filter (fun e => reviewPredB u e.2)) with
    | some e =>
      obtain ⟨i, im⟩ := e
      have hq : reviewPredB u im = true := (List.mem_filter.mp (minByKey_mem hrev)).2
      have himg1 : (get_next_task s u t1).store.images =
          setA s.images i { im with
            status := "in_progress",
            timestamp_assigned := some t1, task_expires_at := some (lockExpiry t1) } := by
        simp only [get_next_task, hrev]
      have htask1 : (get_next_task s u t1).task =
          some (i, { im with status := "in_progress" }) := by
        simp only [get_next_task, hrev]
      rw [htask1]
      obtain ⟨v3, hmin2⟩ := minByKey_filter_setA_eq_key (l := s.images)
        (q := fun e : String × Image => reviewPredB u e.2)
        { im with
          status := "in_progress", timestamp_assigned := some t1,
          task_expires_at := some (lockExpiry t1) } hrev (by exact hq)
      obtain ⟨s1, hs1⟩ : ∃ x, (get_next_task s u t1).store = x := ⟨_, rfl⟩
      rw [hs1] at himg1 ⊢
      simp only [get_next_task, himg1, hmin2]
      rfl
    | none =>
      cases hres : minByKey (s.images.filter (fun e => resumePredB u e.2)) with
      | some e =>
        obtain ⟨i, im⟩ := e
        have hc1 : get_next_task s u t1 = ⟨s, some (i, im)⟩ := by
          simp only [get_next_task, hrev, hres]
        rw [hc1]
        simp only [get_next_task, hrev, hres]
      | none =>
        have hrevfail : ∀ e ∈ s.images, reviewPredB u e.2 = false := by
          have h0 := List.filter_eq_nil_iff.mp (minByKey_eq_none.mp hrev)
          exact fun e he => Bool.eq_false_iff.mpr (h0 e he)
        have hresfail : ∀ e ∈ s.images, resumePredB u e.2 = false := by
          have h0 := List.filter_eq_nil_iff.mp (minByKey_eq_none.mp hres)
          exact fun e he => Bool.eq_false_iff.mpr (h0 e he)
        by_cases hcp : truthyOptStr
            ((lookupA s.users u).getD emptyUser).current_property_id = true
        · cases hfind : (List.take 50 (sortTU
              (s.images.filter (fun e => e.2.status == "unlabeled")))).find?
              (fun e => e.2.property_id ==
                ((lookupA s.users u).getD emptyUser).current_property_id) with
          | some c =>
            obtain ⟨i, im⟩ := c
            have himg1 : (get_next_task s u t1).store.images =
                setA s.images i { im with
                  status := "in_progress", assigned_to := some u,
                  timestamp_assigned := some t1, task_expires_at := some (lockExpiry t1) } := by
              simp only [get_next_task, hrev, hres, hcp, if_true, hfind]
            have htask1 : (get_next_task s u t1).task =
                some (i, { im with status := "in_progress", assigned_to := some u }) := by
              simp only [get_next_task, hrev, hres, hcp, if_true, hfind]
            rw [htask1]
            exact gnt_second_call_key s _ u t2 i _ himg1 hrevfail hresfail (by simp [resumePredB])
          | none =>
            cases hfc : findClaimable s.users u
                ((lookupA s.users u).getD emptyUser).current_property_id
                (List.take 50 (sortTU
                  (s.images.filter (fun e => e.2.status == "unlabeled")))) with
            | some c =>
              obtain ⟨i, im⟩ := c
              have himg1 : (get_next_task s u t1).store.images =
                  setA s.images i { im with
                    status := "in_progress", assigned_to := some u,
                    timestamp_assigned := some t1, task_expires_at := some (lockExpiry t1) } := by
                simp only [get_next_task, hrev, hres, hcp, if_true, hfind, hfc]
              have htask1 : (get_next_task s u t1).task =
                  some (i, { im with status := "in_progress", assigned_to := some u }) := by
                simp only [get_next_task, hrev, hres, hcp, if_true, hfind, hfc]
              rw [htask1]
              exact gnt_second_call_key s _ u t2 i _ himg1 hrevfail hresfail (by simp [resumePredB])
            | none =>
              obtain ⟨ud0, hlu, htru0⟩ :
                  ∃ ud0, lookupA s.users u = some ud0 ∧
                    truthyOptStr ud0.current_property_id = true := by
                cases hlu : lookupA s.users u with
                | none =>
                  rw [hlu] at hcp
                  simp [emptyUser, truthyOptStr] at hcp
                | some ud0 =>
                  rw [hlu] at hcp
                  exact ⟨ud0, rfl, hcp⟩
              have himg1 : (get_next_task s u t1).store.images = s.images := by
                simp only [get_next_task, hrev, hres, hcp, if_true, hfind, hfc]
              have husers1 : (get_next_task s u t1).store.users = setA s.users u
                  (clearedUser ((lookupA s.users u).getD emptyUser)) := by
                simp only [get_next_task, hrev, hres, hcp, if_true, hfind, hfc, clearedUser]
              have htask1 : (get_next_task s u t1).task = none := by
                simp only [get_next_task, hrev, hres, hcp, if_true, hfind, hfc]
              rw [htask1]
              have hfc2 : findClaimable (setA s.users u
                  (clearedUser ((lookupA s.users u).getD emptyUser))) u none
                  (List.take 50 (sortTU
                    (s.images.filter (fun e => e.2.status == "unlabeled")))) = none := by
                refine findClaimable_eq_none ?_
                intro c hc
                by_cases htru : truthyOptStr c.2.property_id = true
                · rcases findClaimable_none_spec hfc c hc with h1 | h1 | h1
                  · rw [htru] at h1
                    cases h1
                  · exfalso
                    exact (List.find?_eq_none.mp hfind c hc) h1
                  · refine Or.inr (Or.inr ?_)
                    have hqc : c.2.property_id = some (c.2.property_id.getD "") := by
                      cases hp : c.2.property_id with
                      | none => simp [hp, truthyOptStr] at htru
                      | some q0 => simp [hp]
                    have hne : (c.2.property_id ==
                        ((lookupA s.users u).getD emptyUser).current_property_id) = false := by
                      have hh := List.find?_eq_none.mp hfind c hc
                      exact Bool.eq_false_iff.mpr (fun hx => hh hx)
                    have hw0 : (fun e : String × UserDoc =>
                        e.2.current_property_id == some (c.2.property_id.getD "")) (u, ud0) =
                        false := by
                      refine Bool.eq_false_iff.mpr ?_
                      intro hx
                      have hx2 := beq_iff_eq.mp hx
                      rw [hlu] at hne
                      rw [Option.getD_some] at hne
                      rw [← hqc] at hx2
                      rw [hx2] at hne
                      simp at hne
                    have hv0 : (fun e : String × UserDoc =>
                        e.2.current_property_id == some (c.2.property_id.getD ""))
                        (u, clearedUser ((lookupA s.users u).getD emptyUser)) = false := by
                      simp [clearedUser]
                    have hPT : property_taken_by_other (setA s.users u
                        (clearedUser ((lookupA s.users u).getD emptyUser))) u
                        (c.2.property_id.getD "") =
                        property_taken_by_other s.users u (c.2.property_id.getD "") := by
                      simp only [property_taken_by_other]
                      rw [filter_setA_unchanged _ hlu hw0 hv0]
                    rw [hPT]
                    exact h1
                · exact Or.inl (Bool.eq_false_iff.mpr htru)
              obtain ⟨s1, hs1⟩ : ∃ x, (get_next_task s u t1).store = x := ⟨_, rfl⟩
              rw [hs1] at himg1 husers1 ⊢
              simp only [clearedUser] at hfc2
              simp only [get_next_task, himg1, hrev, hres, husers1, lookupA_setA_self,
                Option.getD_some, clearedUser, truthyOptStr, Bool.false_eq_true, if_false,
                hfc2]
        · cases hfc : findClaimable s.users u
              ((lookupA s.users u).getD emptyUser).current_property_id
              (List.take 50 (sortTU
                (s.images.filter (fun e => e.2.status == "unlabeled")))) with
          | some c =>
            obtain ⟨i, im⟩ := c
            have himg1 : (get_next_task s u t1).store.images =
                setA s.images i { im with
                  status := "in_progress", assigned_to := some u,
                  timestamp_assigned := some t1, task_expires_at := some (lockExpiry t1) } := by
              simp only [get_next_task, hrev, hres, hcp, Bool.false_eq_true, if_false, hfc]
            have htask1 : (get_next_task s u t1).task =
                some (i, { im with status := "in_progress", assigned_to := some u }) := by
              simp only [get_next_task, hrev, hres, hcp, Bool.false_eq_true, if_false, hfc]
            rw [htask1]
            exact gnt_second_call_key s _ u t2 i _ himg1 hrevfail hresfail (by simp [resumePredB])
          | none =>
            have hc1 : get_next_task s u t1 = ⟨s, none⟩ := by
              simp only [get_next_task, hrev, hres, hcp, Bool.false_eq_true, if_false, hfc]
            rw [hc1]
            have hc2 : get_next_task s u t2 = ⟨s, none⟩ := by
              simp only [get_next_task, hrev, hres, hcp, Bool.false_eq_true, if_false, hfc]
            rw [hc2]
  · intro s u t i im hrev hres
    simp only [get_next_task, hrev, hres]

/-- C7 witness: a worker holding an in-progress image; the resume part of the
theorem applied at that concrete store. -/
theorem get_next_task_idempotent_witness :
    get_next_task
      { images := [("r", { imgU 1 (some "P1") with
          status := "in_progress", assigned_to := some "bob" })],
        labels := [], revs := [], users := [] } "bob" 9 =
    ⟨{ images := [("r", { imgU 1 (some "P1") with
          status := "in_progress", assigned_to := some "bob" })],
        labels := [], revs := [], users := [] },
      some ("r", { imgU 1 (some "P1") with
        status := "in_progress", assigned_to := some "bob" })⟩ :=
  get_next_task_idempotent.2
    { images := [("r", { imgU 1 (some "P1") with
        status := "in_progress", assigned_to := some "bob" })],
      labels := [], revs := [], users := [] } "bob" 9 "r"
    { imgU 1 (some "P1") with status := "in_progress", assigned_to := some "bob" }
    (by decide) (by decide)
